import Mathlib

/- Formal model of the offline EDF-VD scheduler simulation of this repository
   (src/FreeRTOS/EDF-VD/sim_offline_edfvd.c, with src/edfvd/edfvdsim.c as the
   secondary variant).  All simulated times are embedded as exact rationals;
   the C doubles carry only values produced by field arithmetic on the inputs,
   which the rational model reproduces.  The C library qsort called with
   compareVDL (which compares only the virtualDeadline field) is modelled as a
   stable sort (glibc qsort is a stable merge sort); stability is the only
   freedom the C standard leaves here and it is what the deterministic
   tie-break of the schedule relies on. -/

/-- Criticality levels, from the CritLevel_t enum. -/
inductive CritLevel
  | low
  | high
deriving DecidableEq

/-- TaskInfo_t from the source. -/
structure TaskInfo where
  name : String
  phase : ℚ
  period : ℚ
  wcet : ℚ
  deadline : ℚ
  critLevel : CritLevel
  virtualDeadline : ℚ
  jobCount : Nat
deriving DecidableEq

/-- Job_t from the source. -/
structure Job where
  taskIndex : Nat
  jobId : Nat
  arrivalTime : ℚ
  absoluteDeadline : ℚ
  virtualDeadline : ℚ
  wcet : ℚ
  actualExecTime : ℚ
  remainingTime : ℚ
  startTime : ℚ
  finishTime : ℚ
  finished : Bool
deriving DecidableEq

/-- Slice_t / ScheduleSlice_t from the source. -/
structure Slice where
  start : ℚ
  endTime : ℚ
  taskIndex : Nat
  jobId : Nat
deriving DecidableEq

/-- MAX_TASKS from the source. -/
def maxTasks : Nat := 50

/-- MAX_JOBS from the source. -/
def maxJobs : Nat := 5000

/-- Bound of the slices array (10000) from the source. -/
def maxSlices : Nat := 10000

/-- The 1e-9 completion tolerance used by scheduleEDFVD. -/
def eps : ℚ := 1 / 1000000000

def defaultTask : TaskInfo :=
  { name := "", phase := 0, period := 0, wcet := 0, deadline := 0,
    critLevel := CritLevel.low, virtualDeadline := 0, jobCount := 0 }

def defaultJob : Job :=
  { taskIndex := 0, jobId := 0, arrivalTime := 0, absoluteDeadline := 0,
    virtualDeadline := 0, wcet := 0, actualExecTime := 0, remainingTime := 0,
    startTime := 0, finishTime := 0, finished := false }

def defaultSlice : Slice :=
  { start := 0, endTime := 0, taskIndex := 0, jobId := 0 }

/-- Array read jobs[i] (jobs are held in a C array indexed below g_numJobs). -/
def jget (js : List Job) (i : Nat) : Job := js.getD i defaultJob

/-- Array read tasks[i]. -/
def tget (ts : List TaskInfo) (i : Nat) : TaskInfo := ts.getD i defaultTask

/-- Array read slices[i]. -/
def sget (sl : List Slice) (i : Nat) : Slice := sl.getD i defaultSlice

/-- Identity (taskIndex, jobId) of a job. -/
def idOf (j : Job) : Nat × Nat := (j.taskIndex, j.jobId)

/-- Identity (taskIndex, jobId) carried on a slice. -/
def idSl (a : Slice) : Nat × Nat := (a.taskIndex, a.jobId)

/- ----------------------------------------------------------------
   gcd / lcm helpers (gcdLL, lcmLL from the source).
   gcdLL is the Euclidean recursion `if b == 0 then a else gcdLL b (a % b)`;
   it is written with an explicit structural fuel so that the kernel can
   evaluate it, and proved equal to Nat.gcd below.
   ---------------------------------------------------------------- -/

def gcdFuel : Nat → Nat → Nat → Nat
  | 0, a, _ => a
  | _ + 1, a, 0 => a
  | f + 1, a, b => gcdFuel f b (a % b)

/-- Euclid from the source (gcdLL); fuel b suffices since the second
argument strictly decreases. -/
def gcdLL (a b : Nat) : Nat := gcdFuel b a b

/-- lcmLL from the source: `if g == 0 then 0 else (a / g) * b`. -/
def lcmLL (a b : Nat) : Nat :=
  let g := gcdLL a b
  if g = 0 then 0 else a / g * b

/- ----------------------------------------------------------------
   Input token model.  The two input files are streams of whitespace
   separated tokens; fscanf %lf succeeds exactly on numeric tokens,
   %s accepts any token, %c takes the first character of the next
   token, %d succeeds on integer-valued numeric tokens.
   ---------------------------------------------------------------- -/

inductive Token
  | num (q : ℚ)
  | str (s : String)
deriving DecidableEq

/-- fscanf %lf on one token. -/
def tokNum : Token → Option ℚ
  | Token.num q => some q
  | Token.str _ => none

/-- fscanf %s on one token. -/
def tokStr : Token → String
  | Token.num q => toString q
  | Token.str s => s

/-- fscanf " %c": the first character of the next token. -/
def tokChar : Token → Char
  | Token.num _ => 'N'
  | Token.str s => s.toList.headD '?'

/-- fscanf %d on one token. -/
def tokInt : Token → Option Int
  | Token.num q => if q.den = 1 then some q.num else none
  | Token.str _ => none

/- ----------------------------------------------------------------
   parseTaskFile (sim_offline_edfvd.c lines 145-188).
   On a malformed record the source sets g_numTasks = i and breaks:
   the task list is truncated at the failing record and the caller
   goes on.  A missing file or an unreadable count leaves 0 tasks.
   ---------------------------------------------------------------- -/

/-- Read one task record: name phase period wcet deadline critChar. -/
def readRecord (toks : List Token) : Option (TaskInfo × List Token) :=
  match toks with
  | a :: b :: c :: d :: e :: f :: rest =>
    match tokNum b, tokNum c, tokNum d, tokNum e with
    | some ph, some pd, some wc, some dl =>
      some ({ name := tokStr a, phase := ph, period := pd, wcet := wc,
              deadline := dl,
              critLevel := if tokChar f = 'H' ∨ tokChar f = 'h'
                           then CritLevel.high else CritLevel.low,
              virtualDeadline := dl, jobCount := 0 }, rest)
    | _, _, _, _ => none
  | _ => none

/-- The record loop of parseTaskFile: stop at the first malformed record,
keeping the records read so far (g_numTasks = i). -/
def parseRecords : Nat → List Token → List TaskInfo
  | 0, _ => []
  | k + 1, toks =>
    match readRecord toks with
    | none => []
    | some (t, rest) => t :: parseRecords k rest

/-- parseTaskFile; `none` models a file that cannot be opened. -/
def parseTaskFileFR (file : Option (List Token)) : List TaskInfo :=
  match file with
  | none => []
  | some [] => []
  | some (t :: rest) =>
    match tokInt t with
    | none => []
    | some n => parseRecords n.toNat rest

/- ----------------------------------------------------------------
   computeHyperPeriodAndJobCounts (lines 193-234).
   Periods are rounded by (long long)(period + 0.5); for positive
   periods this is the floor of period + 1/2.  Values <= 0 are
   clamped to 1.  Only the first MAX_TASKS tasks take part.
   ---------------------------------------------------------------- -/

/-- Rounded and clamped integer period: (long long)(p + 0.5), then
`if p_ll <= 0 then 1`.  For p > -1/2 the C cast truncation equals the floor. -/
def clampedPeriod (p : ℚ) : Nat :=
  let r : Int := ⌊p + 1 / 2⌋
  if r ≤ 0 then 1 else r.toNat

/-- Per-task job count: 0 when phase ≥ H, else floor((H - phase)/period)
clamped below at 0. -/
def jobCountFor (H : ℚ) (t : TaskInfo) : Nat :=
  if H ≤ t.phase then 0
  else
    let c : Int := ⌊(H - t.phase) / t.period⌋
    if c < 0 then 0 else c.toNat

/-- computeHyperPeriodAndJobCounts: returns the hyperperiod and the task list
with jobCount filled in for the first MAX_TASKS tasks. -/
def computeHyperPeriodAndJobCounts (ts : List TaskInfo) :
    ℚ × List TaskInfo :=
  if ts.length = 0 then (1, ts)
  else
    let valid := ts.take maxTasks
    let l : Nat := (valid.map (fun t => clampedPeriod t.period)).foldl lcmLL 1
    let H : ℚ := (l : ℚ)
    (H, valid.map (fun t => { t with jobCount := jobCountFor H t })
          ++ ts.drop maxTasks)

/- ----------------------------------------------------------------
   computeEDFVDParameters (lines 239-265).
   ---------------------------------------------------------------- -/

/-- Utilization sum over tasks of one criticality level. -/
def utilSum (ts : List TaskInfo) (c : CritLevel) : ℚ :=
  ts.foldl (fun a t => if t.critLevel = c then a + t.wcet / t.period else a) 0

/-- The scaling factor x: 1.0, overwritten with U_H / (1 - U_L) clamped to 1
when U_L < 1. -/
def scalingFactor (ts : List TaskInfo) : ℚ :=
  let uL := utilSum ts CritLevel.low
  let uH := utilSum ts CritLevel.high
  if uL < 1 then
    let x := uH / (1 - uL)
    if 1 < x then 1 else x
  else 1

/-- computeEDFVDParameters: scale the virtual deadline of every HI task. -/
def computeEDFVDParameters (ts : List TaskInfo) : List TaskInfo :=
  ts.map fun t =>
    if t.critLevel = CritLevel.high then
      { t with virtualDeadline := t.deadline * scalingFactor ts }
    else t

/- ----------------------------------------------------------------
   buildJobsArray (lines 270-347).
   For each task in order, read jobCount execution times, then append
   one job per arrival below the hyperperiod.  Reaching MAX_JOBS makes
   the function return at once (the job list stays truncated and the
   caller continues); a failed read of an execution time also returns
   with the jobs built so far.
   ---------------------------------------------------------------- -/

inductive BuildRes
  | ok
  | openFail
  | readFail
  | capacity
deriving DecidableEq

/-- Read n numeric tokens (the actualETs array of one task). -/
def readNums : Nat → List Token → Option (List ℚ × List Token)
  | 0, toks => some ([], toks)
  | n + 1, [] =>
    let _ := n
    none
  | n + 1, t :: rest =>
    match tokNum t with
    | none => none
    | some q =>
      match readNums n rest with
      | none => none
      | some (qs, rest2) => some (q :: qs, rest2)

/-- The job record created for jobId j of task t with actual execution
time et. -/
def mkJob (t : TaskInfo) (tIdx j : Nat) (et : ℚ) : Job :=
  { taskIndex := tIdx, jobId := j,
    arrivalTime := t.phase + (j : ℚ) * t.period,
    absoluteDeadline := t.phase + (j : ℚ) * t.period + t.deadline,
    virtualDeadline := t.phase + (j : ℚ) * t.period + t.virtualDeadline,
    wcet := t.wcet, actualExecTime := et, remainingTime := et,
    startTime := -1, finishTime := -1, finished := false }

/-- Inner loop of buildJobsArray for one task: jobId j runs over the
execution-time list; arrivals at or past the hyperperiod are skipped; the
Bool result reports that MAX_JOBS was reached (the source returns there). -/
def buildJobsForTask (t : TaskInfo) (tIdx : Nat) (H : ℚ) :
    List ℚ → Nat → List Job → List Job × Bool
  | [], _, acc => (acc, false)
  | et :: more, j, acc =>
    if H ≤ t.phase + (j : ℚ) * t.period then
      buildJobsForTask t tIdx H more (j + 1) acc
    else
      if maxJobs ≤ (acc ++ [mkJob t tIdx j et]).length then
        (acc ++ [mkJob t tIdx j et], true)
      else buildJobsForTask t tIdx H more (j + 1) (acc ++ [mkJob t tIdx j et])

/-- Task loop of buildJobsArray. -/
def buildLoop (H : ℚ) : List TaskInfo → Nat → List Token → List Job →
    List Job × BuildRes
  | [], _, _, acc => (acc, BuildRes.ok)
  | t :: rest, tIdx, toks, acc =>
    if t.jobCount = 0 then buildLoop H rest (tIdx + 1) toks acc
    else
      match readNums t.jobCount toks with
      | none => (acc, BuildRes.readFail)
      | some (ets, toks2) =>
        match buildJobsForTask t tIdx H ets 0 acc with
        | (acc2, true) => (acc2, BuildRes.capacity)
        | (acc2, false) => buildLoop H rest (tIdx + 1) toks2 acc2

/-- buildJobsArray; `none` models an exec-times file that cannot be opened. -/
def buildJobsArrayFR (ts : List TaskInfo) (H : ℚ)
    (file : Option (List Token)) : List Job × BuildRes :=
  match file with
  | none => ([], BuildRes.openFail)
  | some toks => buildLoop H ts 0 toks []

/- ----------------------------------------------------------------
   scheduleEDFVD (lines 362-523).
   ---------------------------------------------------------------- -/

/-- State of the scheduling loop. -/
structure SchedState where
  jobs : List Job
  slices : List Slice
  now : ℚ
  lastJobIndex : Option Nat
deriving DecidableEq

/-- A job is active: not finished, arrived, with remaining time. -/
def activePred (now : ℚ) (j : Job) : Bool :=
  !j.finished && decide (j.arrivalTime ≤ now) && decide (0 < j.remainingTime)

/-- The activeIndices array collected at the top of each loop iteration. -/
def activeIndices (s : SchedState) : List Nat :=
  (List.range s.jobs.length).filter fun i => activePred s.now (jget s.jobs i)

/-- Minimum arrival strictly after now among unfinished jobs, defaulting to
the hyperperiod. -/
def nextArrival (js : List Job) (now H : ℚ) : ℚ :=
  js.foldl
    (fun acc j =>
      if j.finished = false ∧ now < j.arrivalTime ∧ j.arrivalTime < acc
      then j.arrivalTime else acc)
    H

/-- One insertion step of the stable sort modelling qsort with compareVDL:
the inserted element passes every element whose virtualDeadline is ≤ its
own, so equal keys keep their original relative order. -/
def insertAfterEq (x : Job) : List Job → List Job
  | [] => [x]
  | y :: r =>
    if y.virtualDeadline ≤ x.virtualDeadline then y :: insertAfterEq x r
    else x :: y :: r

/-- Stable sort by virtualDeadline (the model of qsort(compareVDL)). -/
def sortVDL (l : List Job) : List Job :=
  l.foldl (fun acc x => insertAfterEq x acc) []

/-- Selection of the job to dispatch, exactly as in the source: a single
active job is taken directly; otherwise the active jobs are copied, sorted
by virtual deadline, and the head is matched back against the active index
list by (virtualDeadline, taskIndex, jobId). -/
def chooseIndex (js : List Job) (act : List Nat) : Option Nat :=
  match act with
  | [] => none
  | [i] => some i
  | _ :: _ :: _ =>
    match (sortVDL (act.map (jget js))).head? with
    | none => none
    | some t0 =>
      act.find? fun i =>
        decide ((jget js i).virtualDeadline = t0.virtualDeadline ∧
                (jget js i).taskIndex = t0.taskIndex ∧
                (jget js i).jobId = t0.jobId)

/-- Overwrite the end of the last slice (slices[g_numSlices-1].end = e). -/
def setLastEnd : List Slice → ℚ → List Slice
  | [], _ => []
  | [a], e => [{ a with endTime := e }]
  | a :: b :: r, e => a :: setLastEnd (b :: r) e

/-- Updates applied to the dispatched job when it runs from now to nd:
remainingTime -= delta, startTime recorded on first dispatch, and the
finished flag and finishTime set when remainingTime drops to ≤ 1e-9. -/
def updateRunJob (j : Job) (now nd : ℚ) : Job :=
  if j.remainingTime - (nd - now) ≤ eps then
    { j with remainingTime := j.remainingTime - (nd - now),
             startTime := if j.startTime < 0 then now else j.startTime,
             finished := true, finishTime := nd }
  else
    { j with remainingTime := j.remainingTime - (nd - now),
             startTime := if j.startTime < 0 then now else j.startTime }

/-- Result of one iteration of the while loop. -/
inductive StepRes
  | next (s : SchedState)
  | halt (s : SchedState)
  | capFail (s : SchedState)
  | selectFail (s : SchedState)
deriving DecidableEq

/-- One iteration of the scheduling while loop (entered only when
now < hyperPeriod). -/
def schedStep (H : ℚ) (s : SchedState) : StepRes :=
  match activeIndices s with
  | [] =>
    let na := nextArrival s.jobs s.now H
    if s.now < na ∧ na < H then StepRes.next { s with now := na }
    else StepRes.halt s
  | i :: rest =>
    match chooseIndex s.jobs (i :: rest) with
    | none => StepRes.selectFail s
    | some ci =>
      let j := jget s.jobs ci
      let na := nextArrival s.jobs s.now H
      let fin := s.now + j.remainingTime
      let nd := if na < fin then na else fin
      if s.lastJobIndex ≠ some ci then
        if maxSlices ≤ s.slices.length + 1 then StepRes.capFail s
        else
          StepRes.next
            { jobs := s.jobs.set ci (updateRunJob j s.now nd),
              slices := s.slices ++
                [{ start := s.now, endTime := nd,
                   taskIndex := j.taskIndex, jobId := j.jobId }],
              now := nd, lastJobIndex := some ci }
      else
        StepRes.next
          { jobs := s.jobs.set ci (updateRunJob j s.now nd),
            slices := setLastEnd s.slices nd,
            now := nd, lastJobIndex := some ci }

/-- The state carried by a step result. -/
def stepState : StepRes → SchedState
  | StepRes.next s => s
  | StepRes.halt s => s
  | StepRes.capFail s => s
  | StepRes.selectFail s => s

/-- Whether the loop is still running, or why it stopped. -/
inductive SimStatus
  | running
  | stopped
  | capacityStop
  | selectStop
deriving DecidableEq

/-- Advance the loop by one iteration (checking the while condition). -/
def schedAdvance (H : ℚ) : SchedState × SimStatus → SchedState × SimStatus
  | (s, SimStatus.running) =>
    if s.now < H then
      match schedStep H s with
      | StepRes.next s2 => (s2, SimStatus.running)
      | StepRes.halt s2 => (s2, SimStatus.stopped)
      | StepRes.capFail s2 => (s2, SimStatus.capacityStop)
      | StepRes.selectFail s2 => (s2, SimStatus.selectStop)
    else (s, SimStatus.stopped)
  | p => p

/-- Initial loop state: currentTime 0, no slices, lastJobIndex -1. -/
def schedInit (js : List Job) : SchedState :=
  { jobs := js, slices := [], now := 0, lastJobIndex := none }

/-- The loop state after n iterations. -/
def schedIter (H : ℚ) (js : List Job) (n : Nat) : SchedState × SimStatus :=
  (schedAdvance H)^[n] (schedInit js, SimStatus.running)

/-- scheduleEDFVD run to completion; 4·jobs+4 iterations dominate the number
of decision points of any run. -/
def schedRunState (H : ℚ) (js : List Job) : SchedState × SimStatus :=
  schedIter H js (4 * js.length + 4)

/- ----------------------------------------------------------------
   analyzeSchedule (lines 549-597): preemptions are counted as
   adjacent identity changes in the slice stream; waiting/response
   averages run over finished jobs.
   ---------------------------------------------------------------- -/

/-- The preemption count of analyzeSchedule: adjacent slice pairs with
different (taskIndex, jobId). -/
def preemptionsFR : List Slice → Nat
  | a :: b :: r =>
    (if idSl b ≠ idSl a then 1 else 0) + preemptionsFR (b :: r)
  | _ => 0

/-- Statistics written to schedule_analysis.txt: number of tasks, number of
jobs, preemptions, average wait, average response. -/
def analyzeFR (sl : List Slice) (js : List Job) (nT : Nat) :
    Nat × Nat × Nat × ℚ × ℚ :=
  let pre := preemptionsFR sl
  let fin := js.filter (·.finished)
  let n := fin.length
  let w := fin.foldl (fun a j => a + (j.startTime - j.arrivalTime)) 0
  let r := fin.foldl (fun a j => a + (j.finishTime - j.arrivalTime)) 0
  (nT, js.length, pre,
    if 0 < n then w / (n : ℚ) else 0,
    if 0 < n then r / (n : ℚ) else 0)

/- ----------------------------------------------------------------
   The end-to-end pipeline of vRunOfflineEDFVD.
   ---------------------------------------------------------------- -/

inductive PipelineResult
  | noTasks
  | noJobs
  | completed (tasks : List TaskInfo) (H : ℚ) (jobs : List Job)
      (slices : List Slice) (schedStatus : SimStatus) (buildStatus : BuildRes)
deriving DecidableEq

/-- vRunOfflineEDFVD as a pure function of the two input files. -/
def runPipeline (tf ef : Option (List Token)) : PipelineResult :=
  let ts := parseTaskFileFR tf
  if ts.length = 0 then PipelineResult.noTasks
  else
    let hp := computeHyperPeriodAndJobCounts ts
    let ts2 := computeEDFVDParameters hp.2
    let built := buildJobsArrayFR ts2 hp.1 ef
    if built.1.length = 0 then PipelineResult.noJobs
    else
      let run := schedRunState hp.1 built.1
      PipelineResult.completed ts2 hp.1 run.1.jobs run.1.slices run.2 built.2

/-- The slice stream of a pipeline run. -/
def pipelineSlices : PipelineResult → List Slice
  | PipelineResult.completed _ _ _ sl _ _ => sl
  | _ => []

/-- The task list of a pipeline run. -/
def pipelineTasks : PipelineResult → List TaskInfo
  | PipelineResult.completed ts _ _ _ _ _ => ts
  | _ => []

/- ----------------------------------------------------------------
   Measures used by the stated properties.
   ---------------------------------------------------------------- -/

/-- Total duration of the slices bearing identity (ti, ji). -/
def sliceTime : List Slice → Nat → Nat → ℚ
  | [], _, _ => 0
  | a :: r, ti, ji =>
    (if a.taskIndex = ti ∧ a.jobId = ji then a.endTime - a.start else 0) +
      sliceTime r ti ji

/-- The specification's preemption formula: the number of indices i > 0 with
slices[i].identity ≠ slices[i-1].identity. -/
def transitionCount (sl : List Slice) : Nat :=
  ((List.range sl.length).filter fun i =>
    decide (0 < i) && decide (idSl (sget sl i) ≠ idSl (sget sl (i - 1)))).length

/-- Transition count relative to a previous slice, the recursion both the
analyzer loop and the specification formula compute. -/
def transAux : Slice → List Slice → Nat
  | _, [] => 0
  | prev, x :: r => (if idSl x ≠ idSl prev then 1 else 0) + transAux x r

/-- Number of distinct (task, job) identities that ever ran. -/
def distinctIdCount (sl : List Slice) : Nat :=
  (sl.map idSl).dedup.length

/-- Adjacency required of consecutive slices: the earlier slice ends no later
than the later one starts, and their identities differ. -/
def sliceAdj (a b : Slice) : Prop :=
  a.endTime ≤ b.start ∧ idSl a ≠ idSl b

instance : DecidablePred fun p : Slice × Slice => sliceAdj p.1 p.2 := by
  intro p
  unfold sliceAdj
  infer_instance

/-- Strict lexicographic order on (taskIndex, jobId) used by the tie-break. -/
def idLexLt (a b : Job) : Prop :=
  a.taskIndex < b.taskIndex ∨ (a.taskIndex = b.taskIndex ∧ a.jobId < b.jobId)

/-- Jobs listed in strictly increasing (taskIndex, jobId) order, as
buildJobsArray produces them. -/
def sortedByIdent (js : List Job) : Prop := List.Pairwise idLexLt js

instance : DecidableRel idLexLt := by
  intro a b
  unfold idLexLt
  infer_instance

instance (js : List Job) : Decidable (sortedByIdent js) := by
  unfold sortedByIdent
  infer_instance

/- ----------------------------------------------------------------
   Helpers for analysing the selection (head of the stable sort).
   ---------------------------------------------------------------- -/

/-- Keep the earlier of two jobs unless the later one has a strictly
smaller virtual deadline. -/
def keepMin (b j : Job) : Job :=
  if j.virtualDeadline < b.virtualDeadline then j else b

/-- One fold step of runMin?. -/
def runMinStep (ob : Option Job) (x : Job) : Option Job :=
  match ob with
  | none => some x
  | some b => some (keepMin b x)

/-- The first job of a list attaining the minimum virtual deadline. -/
def runMin? (l : List Job) : Option Job :=
  l.foldl runMinStep none

/- ----------------------------------------------------------------
   Loop invariant of scheduleEDFVD.
   ---------------------------------------------------------------- -/

/-- Relation between lastJobIndex, the last slice and the current time:
lastJobIndex points below the job array, the last slice carries that job's
identity and ends no later than now, and if that job is still unfinished the
last slice ends exactly at now and the job has more than eps remaining. -/
def lastStateOK (s : SchedState) : Prop :=
  match s.lastJobIndex with
  | none => s.slices = []
  | some ci =>
    ci < s.jobs.length ∧ s.slices ≠ [] ∧
    (∀ a ∈ s.slices.getLast?,
      idSl a = idOf (jget s.jobs ci) ∧ a.endTime ≤ s.now ∧
      ((jget s.jobs ci).finished = false →
        a.endTime = s.now ∧ eps < (jget s.jobs ci).remainingTime)) ∧
    (jget s.jobs ci).arrivalTime ≤ s.now

/-- The loop invariant of scheduleEDFVD, relative to the initial job list:
job count and immutable job fields are preserved, identities are distinct,
remaining times are non-negative, executed time is billed exactly to the
slices of the job's identity, slices are well formed and chained, and the
lastJobIndex bookkeeping is consistent. -/
def SchedInv (js0 : List Job) (s : SchedState) : Prop :=
  s.jobs.length = js0.length ∧
  (∀ i, i < js0.length →
    idOf (jget s.jobs i) = idOf (jget js0 i) ∧
    (jget s.jobs i).actualExecTime = (jget js0 i).actualExecTime ∧
    (jget s.jobs i).arrivalTime = (jget js0 i).arrivalTime) ∧
  (s.jobs.map idOf).Nodup ∧
  (∀ j ∈ s.jobs, 0 ≤ j.remainingTime) ∧
  (∀ i, i < js0.length →
    (jget s.jobs i).actualExecTime - (jget s.jobs i).remainingTime =
      sliceTime s.slices (jget s.jobs i).taskIndex (jget s.jobs i).jobId) ∧
  (∀ a ∈ s.slices, a.start < a.endTime) ∧
  List.Chain' sliceAdj s.slices ∧
  lastStateOK s

/- ----------------------------------------------------------------
   Global state model for the determinism property: the file-scope
   arrays tasks[], jobs[], slices[] survive across invocations; an
   invocation overwrites a prefix of each and reads only what the
   counters cover.
   ---------------------------------------------------------------- -/

structure Globals where
  tasksArr : Nat → TaskInfo
  jobsArr : Nat → Job
  slicesArr : Nat → Slice

/-- Writing list l over the first l.length cells of a C array. -/
def overwriteArr {α : Type} (old : Nat → α) (l : List α) : Nat → α :=
  fun i => if h : i < l.length then l.get ⟨i, h⟩ else old i

/-- Reading back the first n cells of a C array. -/
def arrToList {α : Type} (f : Nat → α) (n : Nat) : List α :=
  (List.range n).map f

/-- What one invocation writes to the output files: the schedule lines
(start, end, task name, job id) and the analysis statistics, or nothing at
all when the run stops before the writer. -/
structure RunOut where
  lines : List (ℚ × ℚ × String × Nat)
  stats : Option (Nat × Nat × Nat × ℚ × ℚ)
  produced : Bool
deriving DecidableEq

/-- vRunOfflineEDFVD acting on the surviving global arrays: every phase
overwrites the prefix its counter covers and all later reads go through the
arrays, including the writer, which reads one slice cell past the written
prefix when the slice capacity was hit (the source increments g_numSlices
before bailing out without writing the cell). -/
def vRunWithGlobals (g : Globals) (tf ef : Option (List Token)) :
    Globals × RunOut :=
  let ts := parseTaskFileFR tf
  let g1 : Globals := { g with tasksArr := overwriteArr g.tasksArr ts }
  let nT := ts.length
  if nT = 0 then (g1, { lines := [], stats := none, produced := false })
  else
    let hp := computeHyperPeriodAndJobCounts (arrToList g1.tasksArr nT)
    let g2 : Globals := { g1 with tasksArr := overwriteArr g1.tasksArr hp.2 }
    let ts2 := computeEDFVDParameters (arrToList g2.tasksArr nT)
    let g3 : Globals := { g2 with tasksArr := overwriteArr g2.tasksArr ts2 }
    let built := buildJobsArrayFR (arrToList g3.tasksArr nT) hp.1 ef
    let g4 : Globals := { g3 with jobsArr := overwriteArr g3.jobsArr built.1 }
    let nJ := built.1.length
    if nJ = 0 then (g4, { lines := [], stats := none, produced := false })
    else
      let run := schedRunState hp.1 (arrToList g4.jobsArr nJ)
      let g5 : Globals :=
        { g4 with jobsArr := overwriteArr g4.jobsArr run.1.jobs,
                  slicesArr := overwriteArr g4.slicesArr run.1.slices }
      let nS := run.1.slices.length +
        (if run.2 = SimStatus.capacityStop then 1 else 0)
      let lines := (List.range nS).map fun i =>
        ((g5.slicesArr i).start, (g5.slicesArr i).endTime,
          (g5.tasksArr (g5.slicesArr i).taskIndex).name, (g5.slicesArr i).jobId)
      (g5, { lines := lines,
             stats := some (analyzeFR (arrToList g5.slicesArr nS)
               (arrToList g5.jobsArr nJ) nT),
             produced := true })

/-- Whether a run of the pipeline hits the slice-capacity bail-out (the one
path on which the writer reads an unwritten array cell). -/
def runHitsSliceCapacity (tf ef : Option (List Token)) : Bool :=
  match runPipeline tf ef with
  | PipelineResult.completed _ _ _ _ st _ => st = SimStatus.capacityStop
  | _ => false

/- ----------------------------------------------------------------
   Basic lemmas about the helpers.
   ---------------------------------------------------------------- -/

/-- Concrete two-task set (one HI, one LO) used to witness C3. -/
def c3Tasks : List TaskInfo :=
  [{ name := "H1", phase := 0, period := 10, wcet := 5, deadline := 10,
     critLevel := CritLevel.high, virtualDeadline := 10, jobCount := 0 },
   { name := "L1", phase := 0, period := 20, wcet := 4, deadline := 20,
     critLevel := CritLevel.low, virtualDeadline := 20, jobCount := 0 }]

/-- Concrete task set used to witness C4 (periods 4 and 6, hyperperiod 12). -/
def c4Tasks : List TaskInfo :=
  [{ name := "T1", phase := 0, period := 4, wcet := 1, deadline := 4,
     critLevel := CritLevel.low, virtualDeadline := 4, jobCount := 0 },
   { name := "T2", phase := 5, period := 6, wcet := 2, deadline := 6,
     critLevel := CritLevel.low, virtualDeadline := 6, jobCount := 0 }]

/-- Concrete scheduler state with a virtual-deadline tie used to witness C1. -/
def c1State : SchedState :=
  { jobs :=
      [{ taskIndex := 0, jobId := 0, arrivalTime := 0, absoluteDeadline := 8,
         virtualDeadline := 5, wcet := 2, actualExecTime := 2,
         remainingTime := 2, startTime := -1, finishTime := -1,
         finished := false },
       { taskIndex := 1, jobId := 0, arrivalTime := 0, absoluteDeadline := 5,
         virtualDeadline := 5, wcet := 2, actualExecTime := 2,
         remainingTime := 2, startTime := -1, finishTime := -1,
         finished := false }],
    slices := [], now := 0, lastJobIndex := none }

/-- Single-job input used to witness C5 and C6. -/
def c5Jobs : List Job :=
  [{ taskIndex := 0, jobId := 0, arrivalTime := 0, absoluteDeadline := 4,
     virtualDeadline := 4, wcet := 1, actualExecTime := 1,
     remainingTime := 1, startTime := -1, finishTime := -1,
     finished := false }]

/-- Task file tokens of the two-task input whose schedule has an idle gap. -/
def c6TaskToks : List Token :=
  [Token.num 2,
   Token.str "T1", Token.num 0, Token.num 2, Token.num 1, Token.num 2,
   Token.str "L",
   Token.str "T2", Token.num 0, Token.num 4, Token.num 1, Token.num 4,
   Token.str "L"]

/-- Exec-times tokens for the gap input. -/
def c6ExecToks : List Token :=
  [Token.num (1 / 2), Token.num (1 / 2), Token.num (1 / 2)]

/-- Task tokens of an input on which a preempted job resumes. -/
def c2TaskToks : List Token :=
  [Token.num 2,
   Token.str "L1", Token.num 0, Token.num 20, Token.num 6, Token.num 20,
   Token.str "L",
   Token.str "H1", Token.num 5, Token.num 10, Token.num 3, Token.num 10,
   Token.str "H"]

/-- Exec-times tokens for the preemption input. -/
def c2ExecToks : List Token := [Token.num 6, Token.num 3]

/-- Task file whose second record is malformed (a non-numeric phase). -/
def c8TaskToks : List Token :=
  [Token.num 2,
   Token.str "T1", Token.num 0, Token.num 4, Token.num 1, Token.num 4,
   Token.str "L",
   Token.str "T2", Token.str "oops", Token.num 1, Token.num 1, Token.num 1,
   Token.str "L"]

/-- Exec-times tokens for the malformed-task-file run. -/
def c8ExecToks : List Token := [Token.num 2]

/-- Input task set whose first task alone generates 5001 jobs over the
hyperperiod lcm(2, 5001) = 10002, exceeding MAX_JOBS = 5000. -/
def c9Tasks : List TaskInfo :=
  [{ name := "T1", phase := 0, period := 2, wcet := 1, deadline := 2,
     critLevel := CritLevel.low, virtualDeadline := 2, jobCount := 0 },
   { name := "T2", phase := 0, period := 5001, wcet := 1, deadline := 5001,
     critLevel := CritLevel.low, virtualDeadline := 5001, jobCount := 0 }]

/-- The first capacity task after job counting. -/
def c9T1 : TaskInfo :=
  { name := "T1", phase := 0, period := 2, wcet := 1, deadline := 2,
    critLevel := CritLevel.low, virtualDeadline := 2, jobCount := 5001 }

/-- The second capacity task after job counting. -/
def c9T2 : TaskInfo :=
  { name := "T2", phase := 0, period := 5001, wcet := 1, deadline := 5001,
    critLevel := CritLevel.low, virtualDeadline := 5001, jobCount := 2 }

/-- Exec-times tokens: enough values for all 5003 intended jobs. -/
def c9ExecToks : List Token :=
  List.replicate 5001 (Token.num 1) ++ [Token.num 1, Token.num 1]

def globShape (nT nJ : Nat) (s : SchedState) : Prop :=
  s.jobs.length = nJ ∧
  (∀ j ∈ s.jobs, j.taskIndex < nT) ∧
  (∀ a ∈ s.slices, a.taskIndex < nT)

/-- The output of vRunOfflineEDFVD as a pure function of its two inputs. -/
def runOutPure (tf ef : Option (List Token)) : RunOut :=
  let ts := parseTaskFileFR tf
  if ts.length = 0 then { lines := [], stats := none, produced := false }
  else
    let hp := computeHyperPeriodAndJobCounts ts
    let ts2 := computeEDFVDParameters hp.2
    let built := buildJobsArrayFR ts2 hp.1 ef
    if built.1.length = 0 then { lines := [], stats := none, produced := false }
    else
      let run := schedRunState hp.1 built.1
      let lines := (List.range run.1.slices.length).map fun i =>
        ((sget run.1.slices i).start, (sget run.1.slices i).endTime,
          (tget ts2 (sget run.1.slices i).taskIndex).name,
          (sget run.1.slices i).jobId)
      { lines := lines,
        stats := some (analyzeFR run.1.slices run.1.jobs ts.length),
        produced := true }

/-- Task file tokens of a small input that runs to completion. -/
def c7TaskToks : List Token :=
  [Token.num 1, Token.str "T1", Token.num 0, Token.num 2, Token.num 1,
   Token.num 2, Token.str "L"]

/-- Exec-times tokens for the small determinism input. -/
def c7ExecToks : List Token := [Token.num 1]

/-- A first garbage state of the global arrays. -/
def c7G1 : Globals :=
  { tasksArr := fun _ => defaultTask, jobsArr := fun _ => defaultJob,
    slicesArr := fun _ => defaultSlice }

/-- A second, different garbage state of the global arrays. -/
def c7G2 : Globals :=
  { tasksArr := fun _ => { defaultTask with name := "stale" },
    jobsArr := fun _ => { defaultJob with taskIndex := 7 },
    slicesArr := fun _ => { defaultSlice with endTime := 5 } }

theorem gcdFuel_eq_gcd (f : Nat) : ∀ a b : Nat, b ≤ f → gcdFuel f a b = Nat.gcd a b := by
  induction f with
  | zero =>
    intro a b hb
    interval_cases b
    simp [gcdFuel]
  | succ f ih =>
    intro a b hb
    match b with
    | 0 => simp [gcdFuel]
    | b + 1 =>
      have hlt : a % (b + 1) ≤ f := by
        have h2 : a % (b + 1) < b + 1 := Nat.mod_lt a (Nat.succ_pos b)
        omega
      rw [show gcdFuel (f + 1) a (b + 1) = gcdFuel f (b + 1) (a % (b + 1)) from rfl,
        ih _ _ hlt]
      rw [Nat.gcd_comm (b + 1) (a % (b + 1)), ← Nat.gcd_rec (b + 1) a, Nat.gcd_comm]

theorem gcdLL_eq_gcd (a b : Nat) : gcdLL a b = Nat.gcd a b :=
  gcdFuel_eq_gcd b a b le_rfl

theorem lcmLL_eq_lcm (a b : Nat) : lcmLL a b = Nat.lcm a b := by
  unfold lcmLL
  rw [gcdLL_eq_gcd]
  by_cases hg : Nat.gcd a b = 0
  · have ha : a = 0 := Nat.eq_zero_of_gcd_eq_zero_left hg
    have hb : b = 0 := Nat.eq_zero_of_gcd_eq_zero_right hg
    simp [hg, ha, hb, Nat.lcm]
  · have hdvd : Nat.gcd a b ∣ a := Nat.gcd_dvd_left a b
    simp only [hg, if_false]
    rw [Nat.lcm, Nat.mul_comm a b, Nat.mul_div_assoc b hdvd, Nat.mul_comm]

/- ----------------------------------------------------------------
   C3: scaling factor and virtual deadlines.
   ---------------------------------------------------------------- -/

/-- C3: for every task list with positive periods and wcets, the scaling
factor x equals 1 when U_LO ≥ 1 and U_HI / (1 - U_LO) clamped to 1
otherwise, and computeEDFVDParameters gives every HI task the virtual
deadline deadline·x while every LO task keeps virtual deadline = deadline. -/
theorem edfvd_scaling_and_virtual_deadlines (ts : List TaskInfo)
    (hper : ∀ t ∈ ts, 0 < t.period) (hwc : ∀ t ∈ ts, 0 < t.wcet)
    (hvd : ∀ t ∈ ts, t.virtualDeadline = t.deadline) :
    (1 ≤ utilSum ts CritLevel.low → scalingFactor ts = 1) ∧
    (utilSum ts CritLevel.low < 1 →
      scalingFactor ts =
        min (utilSum ts CritLevel.high / (1 - utilSum ts CritLevel.low)) 1) ∧
    (∀ t2 ∈ computeEDFVDParameters ts,
      (t2.critLevel = CritLevel.high →
        t2.virtualDeadline = t2.deadline * scalingFactor ts) ∧
      (t2.critLevel = CritLevel.low → t2.virtualDeadline = t2.deadline)) := by
  refine ⟨?_, ?_, ?_⟩
  · intro h
    unfold scalingFactor
    simp [not_lt.mpr h]
  · intro h
    unfold scalingFactor
    simp only [if_pos h]
    by_cases hx : 1 < utilSum ts CritLevel.high / (1 - utilSum ts CritLevel.low)
    · simp only [if_pos hx]
      exact (min_eq_right (le_of_lt hx)).symm
    · simp only [if_neg hx]
      exact (min_eq_left (not_lt.mp hx)).symm
  · intro t2 ht2
    unfold computeEDFVDParameters at ht2
    obtain ⟨t, htmem, hteq⟩ := List.mem_map.mp ht2
    by_cases hc : t.critLevel = CritLevel.high
    · rw [if_pos hc] at hteq
      constructor
      · intro _
        rw [← hteq]
      · intro hlow
        rw [← hteq] at hlow
        simp only at hlow
        rw [hc] at hlow
        exact absurd hlow (by simp)
    · rw [if_neg hc] at hteq
      subst hteq
      constructor
      · intro hhigh
        exact absurd hhigh hc
      · intro _
        exact hvd t htmem

/-- Witness for C3 at a concrete task set. -/
theorem edfvd_scaling_and_virtual_deadlines_witness :
    ((∀ t ∈ c3Tasks, 0 < t.period) ∧ (∀ t ∈ c3Tasks, 0 < t.wcet) ∧
      (∀ t ∈ c3Tasks, t.virtualDeadline = t.deadline)) ∧
    (∀ t2 ∈ computeEDFVDParameters c3Tasks,
      (t2.critLevel = CritLevel.high →
        t2.virtualDeadline = t2.deadline * scalingFactor c3Tasks) ∧
      (t2.critLevel = CritLevel.low → t2.virtualDeadline = t2.deadline)) :=
  ⟨⟨by decide, by decide, by decide⟩,
    (edfvd_scaling_and_virtual_deadlines c3Tasks (by decide) (by decide)
      (by decide)).2.2⟩

/- ----------------------------------------------------------------
   C4: hyperperiod and job counts.
   ---------------------------------------------------------------- -/

theorem foldl_lcmLL_eq (l : List Nat) :
    ∀ a : Nat, l.foldl lcmLL a = l.foldl Nat.lcm a := by
  induction l with
  | nil => intro a; rfl
  | cons x r ih =>
    intro a
    simp only [List.foldl_cons, lcmLL_eq_lcm, ih]

theorem tget_mem (ts : List TaskInfo) (i : Nat) (h : i < ts.length) :
    tget ts i ∈ ts := by
  unfold tget
  rw [List.getD_eq_getElem ts defaultTask h]
  exact List.getElem_mem h

/-- C4: for every non-empty task list (within the MAX_TASKS bound) with
positive periods, the hyperperiod is the lcm of the rounded-and-clamped
periods, and each job count is 0 when phase ≥ H and ⌊(H - phase)/period⌋
otherwise, so that no counted arrival lies at or beyond H. -/
theorem hyperperiod_and_job_counts (ts : List TaskInfo)
    (hne : ts ≠ []) (hlen : ts.length ≤ maxTasks)
    (hper : ∀ t ∈ ts, 0 < t.period) :
    (computeHyperPeriodAndJobCounts ts).1 =
      (((ts.map fun t => clampedPeriod t.period).foldl Nat.lcm 1 : Nat) : ℚ) ∧
    (computeHyperPeriodAndJobCounts ts).2.length = ts.length ∧
    (∀ i, i < ts.length →
      ((computeHyperPeriodAndJobCounts ts).1 ≤ (tget ts i).phase →
        (tget (computeHyperPeriodAndJobCounts ts).2 i).jobCount = 0) ∧
      ((tget ts i).phase < (computeHyperPeriodAndJobCounts ts).1 →
        ((tget (computeHyperPeriodAndJobCounts ts).2 i).jobCount : Int) =
          ⌊((computeHyperPeriodAndJobCounts ts).1 - (tget ts i).phase) /
            (tget ts i).period⌋) ∧
      (∀ j : Nat, j < (tget (computeHyperPeriodAndJobCounts ts).2 i).jobCount →
        (tget ts i).phase + (j : ℚ) * (tget ts i).period <
          (computeHyperPeriodAndJobCounts ts).1)) := by
  have hlen0 : ¬ ts.length = 0 := by
    intro h
    exact hne (List.length_eq_zero.mp h)
  have htake : ts.take maxTasks = ts := List.take_of_length_le hlen
  have hdrop : ts.drop maxTasks = [] := List.drop_eq_nil_of_le hlen
  set L : Nat := (ts.map fun t => clampedPeriod t.period).foldl Nat.lcm 1 with hL
  have hr :
      computeHyperPeriodAndJobCounts ts =
        ((L : ℚ), ts.map fun u => { u with jobCount := jobCountFor (L : ℚ) u }) := by
    unfold computeHyperPeriodAndJobCounts
    rw [if_neg hlen0]
    simp only [htake, hdrop, List.append_nil, foldl_lcmLL_eq, ← hL]
  rw [hr]
  dsimp only
  refine ⟨rfl, by simp, ?_⟩
  intro i hi
  have hmap :
      tget (ts.map fun u => { u with jobCount := jobCountFor (L : ℚ) u }) i =
        { tget ts i with jobCount := jobCountFor (L : ℚ) (tget ts i) } := by
    unfold tget
    rw [List.getD_eq_getElem _ defaultTask (by simpa using hi),
      List.getD_eq_getElem _ defaultTask hi]
    simp
  rw [hmap]
  dsimp only
  have hpos : 0 < (tget ts i).period := hper _ (tget_mem ts i hi)
  refine ⟨?_, ?_, ?_⟩
  · intro hph
    simp only [jobCountFor, if_pos hph]
  · intro hph
    simp only [jobCountFor, if_neg (not_le.mpr hph)]
    have hq : (0 : ℚ) ≤ ((L : ℚ) - (tget ts i).phase) / (tget ts i).period :=
      div_nonneg (by linarith) (le_of_lt hpos)
    have hc : (0 : Int) ≤ ⌊((L : ℚ) - (tget ts i).phase) / (tget ts i).period⌋ :=
      Int.floor_nonneg.mpr hq
    simp only [if_neg (not_lt.mpr hc)]
    exact Int.toNat_of_nonneg hc
  · intro j hj
    simp only [jobCountFor] at hj
    by_cases hph : (L : ℚ) ≤ (tget ts i).phase
    · rw [if_pos hph] at hj
      exact absurd hj (Nat.not_lt_zero j)
    · rw [if_neg hph] at hj
      have hphlt : (tget ts i).phase < (L : ℚ) := not_le.mp hph
      set q : ℚ := ((L : ℚ) - (tget ts i).phase) / (tget ts i).period with hqdef
      have hq : (0 : ℚ) ≤ q := div_nonneg (by linarith) (le_of_lt hpos)
      have hc : (0 : Int) ≤ ⌊q⌋ := Int.floor_nonneg.mpr hq
      rw [if_neg (not_lt.mpr hc)] at hj
      have hj2 : ((j : Int) + 1) ≤ ⌊q⌋ := by omega
      have hfl : ((⌊q⌋ : Int) : ℚ) ≤ q := Int.floor_le q
      have hj3 : (j : ℚ) + 1 ≤ q := by
        have hcast : (((j : Int) + 1 : Int) : ℚ) ≤ ((⌊q⌋ : Int) : ℚ) := by
          exact_mod_cast hj2
        push_cast at hcast
        linarith
      have hmul : ((j : ℚ) + 1) * (tget ts i).period ≤ q * (tget ts i).period :=
        mul_le_mul_of_nonneg_right hj3 (le_of_lt hpos)
      have hqmul : q * (tget ts i).period = (L : ℚ) - (tget ts i).phase := by
        rw [hqdef]
        exact div_mul_cancel₀ _ (ne_of_gt hpos)
      rw [hqmul] at hmul
      nlinarith

/-- Witness for C4 at a concrete task set. -/
theorem hyperperiod_and_job_counts_witness :
    (c4Tasks ≠ [] ∧ c4Tasks.length ≤ maxTasks ∧
      (∀ t ∈ c4Tasks, 0 < t.period)) ∧
    (computeHyperPeriodAndJobCounts c4Tasks).1 =
      (((c4Tasks.map fun t => clampedPeriod t.period).foldl Nat.lcm 1 : Nat) : ℚ) ∧
    (∀ i, i < c4Tasks.length →
      (∀ j : Nat, j < (tget (computeHyperPeriodAndJobCounts c4Tasks).2 i).jobCount →
        (tget c4Tasks i).phase + (j : ℚ) * (tget c4Tasks i).period <
          (computeHyperPeriodAndJobCounts c4Tasks).1)) :=
  ⟨⟨by decide, by decide, by decide⟩,
    (hyperperiod_and_job_counts c4Tasks (by decide) (by decide) (by decide)).1,
    fun i hi =>
      ((hyperperiod_and_job_counts c4Tasks (by decide) (by decide)
        (by decide)).2.2 i hi).2.2⟩

/- ----------------------------------------------------------------
   The head of the stable sort is the first job attaining the
   minimum virtual deadline.
   ---------------------------------------------------------------- -/

theorem head_insertAfterEq (x : Job) (l : List Job) :
    (insertAfterEq x l).head? = (runMinStep l.head? x) := by
  match l with
  | [] => rfl
  | y :: r =>
    simp only [insertAfterEq, runMinStep, List.head?_cons, keepMin]
    by_cases h : y.virtualDeadline ≤ x.virtualDeadline
    · rw [if_pos h, if_neg (not_lt.mpr h)]
      rfl
    · rw [if_neg h, if_pos (not_le.mp h)]
      rfl

theorem foldl_insert_head (l : List Job) :
    ∀ acc : List Job,
      (l.foldl (fun a x => insertAfterEq x a) acc).head? =
        l.foldl runMinStep acc.head? := by
  induction l with
  | nil => intro acc; rfl
  | cons x r ih =>
    intro acc
    simp only [List.foldl_cons]
    rw [ih (insertAfterEq x acc), head_insertAfterEq]

theorem sortVDL_head (l : List Job) : (sortVDL l).head? = runMin? l := by
  unfold sortVDL runMin?
  exact foldl_insert_head l []

theorem runMinStep_foldl_some (l : List Job) :
    ∀ b : Job,
      l.foldl runMinStep (some b) =
        some (match runMin? l with
              | none => b
              | some m =>
                if m.virtualDeadline < b.virtualDeadline then m else b) := by
  induction l with
  | nil => intro b; rfl
  | cons x r ih =>
    intro b
    have hstep : (x :: r).foldl runMinStep (some b) =
        r.foldl runMinStep (some (keepMin b x)) := rfl
    have hx : runMin? (x :: r) = r.foldl runMinStep (some x) := rfl
    rw [hstep, ih (keepMin b x), hx, ih x]
    rcases hmr : runMin? r with _ | m
    · dsimp only [keepMin]
    · dsimp only [keepMin]
      split_ifs <;> first | rfl | (exfalso; linarith)

theorem runMin?_cons (x : Job) (r : List Job) :
    runMin? (x :: r) =
      some (match runMin? r with
            | none => x
            | some m =>
              if m.virtualDeadline < x.virtualDeadline then m else x) := by
  have h : runMin? (x :: r) = r.foldl runMinStep (some x) := rfl
  rw [h, runMinStep_foldl_some]

theorem runMin?_isSome (l : List Job) (h : l ≠ []) : (runMin? l).isSome := by
  match l with
  | x :: r => rw [runMin?_cons]; rfl

theorem runMin?_mem (l : List Job) :
    ∀ m, runMin? l = some m → m ∈ l := by
  induction l with
  | nil =>
    intro m h
    exact absurd h (by simp [runMin?])
  | cons x r ih =>
    intro m h
    rw [runMin?_cons] at h
    rcases hmr : runMin? r with _ | mr <;> rw [hmr] at h <;>
      dsimp only at h
    · rw [Option.some.injEq] at h
      subst h
      exact List.mem_cons_self x r
    · rw [Option.some.injEq] at h
      by_cases h2 : mr.virtualDeadline < x.virtualDeadline
      · rw [if_pos h2] at h
        subst h
        exact List.mem_cons_of_mem x (ih mr hmr)
      · rw [if_neg h2] at h
        subst h
        exact List.mem_cons_self x r

theorem runMin?_min (l : List Job) :
    ∀ m, runMin? l = some m →
      ∀ j ∈ l, m.virtualDeadline ≤ j.virtualDeadline := by
  induction l with
  | nil =>
    intro m h
    exact absurd h (by simp [runMin?])
  | cons x r ih =>
    intro m h j hj
    rw [runMin?_cons] at h
    rcases hmr : runMin? r with _ | mr <;> rw [hmr] at h <;>
      dsimp only at h
    · rw [Option.some.injEq] at h
      subst h
      have hr : r = [] := by
        cases r with
        | nil => rfl
        | cons y t => rw [runMin?_cons] at hmr; exact absurd hmr (by simp)
      subst hr
      rcases List.mem_singleton.mp hj with rfl
      exact le_refl _
    · rw [Option.some.injEq] at h
      rcases List.mem_cons.mp hj with rfl | hjr
      · by_cases h2 : mr.virtualDeadline < j.virtualDeadline
        · rw [if_pos h2] at h
          subst h
          exact le_of_lt h2
        · rw [if_neg h2] at h
          subst h
          exact le_refl _
      · have hmr_le := ih mr hmr j hjr
        by_cases h2 : mr.virtualDeadline < x.virtualDeadline
        · rw [if_pos h2] at h
          subst h
          exact hmr_le
        · rw [if_neg h2] at h
          subst h
          exact le_trans (not_lt.mp h2) hmr_le

theorem runMin?_first_lex (l : List Job) :
    List.Pairwise idLexLt l →
      ∀ m, runMin? l = some m →
        ∀ j ∈ l,
          m.virtualDeadline < j.virtualDeadline ∨
            (m.virtualDeadline = j.virtualDeadline ∧ (m = j ∨ idLexLt m j)) := by
  induction l with
  | nil =>
    intro _ m h
    exact absurd h (by simp [runMin?])
  | cons x r ih =>
    intro hl m h j hj
    rw [runMin?_cons] at h
    have hx_lex : ∀ y ∈ r, idLexLt x y := (List.pairwise_cons.mp hl).1
    have hr_pw : List.Pairwise idLexLt r := (List.pairwise_cons.mp hl).2
    rcases hmr : runMin? r with _ | mr <;> rw [hmr] at h <;>
      dsimp only at h
    · rw [Option.some.injEq] at h
      subst h
      have hr : r = [] := by
        cases r with
        | nil => rfl
        | cons y t => rw [runMin?_cons] at hmr; exact absurd hmr (by simp)
      subst hr
      rcases List.mem_singleton.mp hj with rfl
      exact Or.inr ⟨rfl, Or.inl rfl⟩
    · rw [Option.some.injEq] at h
      by_cases h2 : mr.virtualDeadline < x.virtualDeadline
      · rw [if_pos h2] at h
        subst h
        rcases List.mem_cons.mp hj with rfl | hjr
        · exact Or.inl h2
        · exact ih hr_pw mr hmr j hjr
      · rw [if_neg h2] at h
        subst h
        rcases List.mem_cons.mp hj with rfl | hjr
        · exact Or.inr ⟨rfl, Or.inl rfl⟩
        · have hmr_le := runMin?_min r mr hmr j hjr
          have hxle : x.virtualDeadline ≤ j.virtualDeadline :=
            le_trans (not_lt.mp h2) hmr_le
          rcases lt_or_eq_of_le hxle with hlt | heq
          · exact Or.inl hlt
          · exact Or.inr ⟨heq, Or.inr (hx_lex j hjr)⟩

/- ----------------------------------------------------------------
   C1 / C10: the dispatched job is the (tie-broken) argmin, and the
   re-identification scan never fails.
   ---------------------------------------------------------------- -/

theorem jget_mem (js : List Job) (i : Nat) (h : i < js.length) :
    jget js i ∈ js := by
  unfold jget
  rw [List.getD_eq_getElem js defaultJob h]
  exact List.getElem_mem h

theorem jget_range_map (js : List Job) :
    (List.range js.length).map (jget js) = js := by
  apply List.ext_getElem
  · simp
  · intro i h1 h2
    simp only [List.getElem_map, List.getElem_range]
    exact List.getD_eq_getElem js defaultJob h2

theorem map_filter_comp {α β : Type} (f : α → β) (p : β → Bool) (l : List α) :
    (l.filter fun a => p (f a)).map f = (l.map f).filter p := by
  induction l with
  | nil => rfl
  | cons x r ih =>
    by_cases h : p (f x) <;> simp [List.filter_cons, h, ih]

theorem activeIndices_map (s : SchedState) :
    (activeIndices s).map (jget s.jobs) =
      s.jobs.filter (activePred s.now) := by
  unfold activeIndices
  rw [map_filter_comp (jget s.jobs) (activePred s.now), jget_range_map]

theorem mem_activeIndices (s : SchedState) (i : Nat) :
    i ∈ activeIndices s ↔
      i < s.jobs.length ∧ activePred s.now (jget s.jobs i) = true := by
  simp [activeIndices, List.mem_filter, List.mem_range]

/-- C1: whenever the selection step of scheduleEDFVD dispatches the job at
index ci of the job array, that job has the minimum virtual absolute
deadline over the whole active set, and on equal virtual deadlines it has
the lexicographically least (taskIndex, jobId). -/
theorem edfvd_dispatch_is_argmin (s : SchedState)
    (hsort : sortedByIdent s.jobs) (ci : Nat)
    (hsel : chooseIndex s.jobs (activeIndices s) = some ci) :
    ci ∈ activeIndices s ∧
    ∀ k ∈ activeIndices s,
      (jget s.jobs ci).virtualDeadline < (jget s.jobs k).virtualDeadline ∨
      ((jget s.jobs ci).virtualDeadline = (jget s.jobs k).virtualDeadline ∧
        ((jget s.jobs ci).taskIndex < (jget s.jobs k).taskIndex ∨
         ((jget s.jobs ci).taskIndex = (jget s.jobs k).taskIndex ∧
          (jget s.jobs ci).jobId ≤ (jget s.jobs k).jobId))) := by
  rcases hact : activeIndices s with _ | ⟨i, rest⟩
  · rw [hact] at hsel
    exact absurd hsel (by simp [chooseIndex])
  rcases rest with _ | ⟨i2, rest2⟩
  · rw [hact] at hsel
    simp only [chooseIndex, Option.some.injEq] at hsel
    subst hsel
    constructor
    · exact List.mem_singleton.mpr rfl
    · intro k hk
      rcases List.mem_singleton.mp hk with rfl
      exact Or.inr ⟨rfl, Or.inr ⟨rfl, le_refl _⟩⟩
  · rw [hact] at hsel
    simp only [chooseIndex] at hsel
    rcases hhead : (sortVDL ((i :: i2 :: rest2).map (jget s.jobs))).head? with _ | t0
    · rw [hhead] at hsel
      exact absurd hsel (by simp)
    rw [hhead] at hsel
    rw [sortVDL_head] at hhead
    have hmapped :
        (i :: i2 :: rest2).map (jget s.jobs) =
          s.jobs.filter (activePred s.now) := by
      rw [← hact, activeIndices_map]
    have hpw : List.Pairwise idLexLt ((i :: i2 :: rest2).map (jget s.jobs)) := by
      rw [hmapped]
      exact List.Pairwise.filter _ hsort
    have hfirst := runMin?_first_lex _ hpw t0 hhead
    have hcimem : ci ∈ (i :: i2 :: rest2) := List.mem_of_find?_eq_some hsel
    have hpred := List.find?_some hsel
    rw [decide_eq_true_eq] at hpred
    obtain ⟨hveq, htieq, hjeq⟩ := hpred
    constructor
    · exact hcimem
    · intro k hk
      have hkj : jget s.jobs k ∈ (i :: i2 :: rest2).map (jget s.jobs) :=
        List.mem_map_of_mem (jget s.jobs) hk
      rcases hfirst (jget s.jobs k) hkj with hlt | ⟨hveq2, hcase⟩
      · exact Or.inl (hveq ▸ hlt)
      · refine Or.inr ⟨hveq.trans hveq2, ?_⟩
        rcases hcase with rfl | hlex
        · exact Or.inr ⟨htieq, le_of_eq hjeq⟩
        · rcases hlex with hti | ⟨hti, hji⟩
          · exact Or.inl (htieq ▸ hti)
          · refine Or.inr ⟨htieq.trans hti, ?_⟩
            rw [hjeq]
            exact le_of_lt hji

/-- Witness for C1: with two active jobs of equal virtual deadline, the
scheduler picks the one with the smaller task index. -/
theorem edfvd_dispatch_is_argmin_witness :
    (sortedByIdent c1State.jobs ∧
      chooseIndex c1State.jobs (activeIndices c1State) = some 0) ∧
    (0 ∈ activeIndices c1State ∧
      ∀ k ∈ activeIndices c1State,
        (jget c1State.jobs 0).virtualDeadline <
            (jget c1State.jobs k).virtualDeadline ∨
        ((jget c1State.jobs 0).virtualDeadline =
            (jget c1State.jobs k).virtualDeadline ∧
          ((jget c1State.jobs 0).taskIndex < (jget c1State.jobs k).taskIndex ∨
           ((jget c1State.jobs 0).taskIndex =
              (jget c1State.jobs k).taskIndex ∧
            (jget c1State.jobs 0).jobId ≤ (jget c1State.jobs k).jobId)))) :=
  ⟨⟨by decide, by decide⟩,
    edfvd_dispatch_is_argmin c1State (by decide) 0 (by decide)⟩

theorem chooseIndex_isSome (js : List Job) (act : List Nat) (h : act ≠ []) :
    (chooseIndex js act).isSome := by
  match act with
  | [i] => rfl
  | i :: i2 :: rest =>
    unfold chooseIndex
    have hne : (i :: i2 :: rest).map (jget js) ≠ [] := by simp
    have hsome := runMin?_isSome _ hne
    obtain ⟨t0, ht0⟩ := Option.isSome_iff_exists.mp hsome
    rw [sortVDL_head, ht0]
    dsimp only
    have ht0mem := runMin?_mem _ t0 ht0
    obtain ⟨i0, hi0mem, hi0⟩ := List.mem_map.mp ht0mem
    set p : Nat → Bool := fun k =>
      decide ((jget js k).virtualDeadline = t0.virtualDeadline ∧
        (jget js k).taskIndex = t0.taskIndex ∧
        (jget js k).jobId = t0.jobId) with hp
    have hpi0 : p i0 = true := by
      rw [hp]
      simp only [hi0]
      simp
    rcases hfind : (i :: i2 :: rest).find? p with _ | b
    · have := List.find?_eq_none.mp hfind i0 hi0mem
      exact absurd hpi0 (by simp [this])
    · rfl

/-- C10: one loop iteration of scheduleEDFVD can never end in the
job-re-identification failure branch: whenever the active set is non-empty
the scan that matches the sorted minimum back against the active index list
succeeds, so the scheduler never aborts mid-loop with the selection error. -/
theorem selection_failure_unreachable (H : ℚ) (s : SchedState) :
    ∀ s2, schedStep H s ≠ StepRes.selectFail s2 := by
  intro s2
  unfold schedStep
  rcases hact : activeIndices s with _ | ⟨i, rest⟩
  · dsimp only
    split_ifs <;> simp
  · dsimp only
    have hsome : (chooseIndex s.jobs (i :: rest)).isSome :=
      chooseIndex_isSome s.jobs (i :: rest) (by simp)
    obtain ⟨ci, hci⟩ := Option.isSome_iff_exists.mp hsome
    rw [hci]
    dsimp only
    split_ifs <;> simp

/- ----------------------------------------------------------------
   Supporting lemmas for the scheduler loop invariant.
   ---------------------------------------------------------------- -/

theorem jget_set_self (js : List Job) (i : Nat) (v : Job)
    (h : i < js.length) : jget (js.set i v) i = v := by
  unfold jget
  rw [List.getD_eq_getElem _ defaultJob (by simpa using h)]
  simp [List.getElem_set, h]

theorem jget_set_ne (js : List Job) (i k : Nat) (v : Job)
    (h : k ≠ i) : jget (js.set i v) k = jget js k := by
  unfold jget
  by_cases hk : k < js.length
  · rw [List.getD_eq_getElem _ defaultJob (by simpa using hk),
      List.getD_eq_getElem _ defaultJob hk]
    simp [List.getElem_set, h.symm]
  · rw [List.getD_eq_default _ defaultJob (by simpa using not_lt.mp hk),
      List.getD_eq_default _ defaultJob (not_lt.mp hk)]

theorem map_set_same {α β : Type} (f : α → β) (l : List α) (i : Nat) (v d : α)
    (h : i < l.length) (hf : f v = f (l.getD i d)) :
    (l.set i v).map f = l.map f := by
  apply List.ext_getElem
  · simp
  · intro k h1 h2
    simp only [List.getElem_map, List.getElem_set]
    by_cases hk : i = k
    · subst hk
      rw [if_pos rfl, hf, List.getD_eq_getElem _ d h]
    · rw [if_neg hk]

theorem ids_ne_of_nodup (js : List Job) (hn : (js.map idOf).Nodup)
    (i k : Nat) (hi : i < js.length) (hk : k < js.length) (hik : i ≠ k) :
    idOf (jget js i) ≠ idOf (jget js k) := by
  intro heq
  have hi2 : i < (js.map idOf).length := by simpa using hi
  have hk2 : k < (js.map idOf).length := by simpa using hk
  have h1 : (js.map idOf).get ⟨i, hi2⟩ = (js.map idOf).get ⟨k, hk2⟩ := by
    simp only [List.get_eq_getElem, List.getElem_map]
    rw [← List.getD_eq_getElem js defaultJob hi,
      ← List.getD_eq_getElem js defaultJob hk]
    exact heq
  have h2 : (js.map idOf).get ⟨i, hi2⟩ = (js.map idOf).get ⟨k, hk2⟩ →
      i = k := by
    simp only [List.get_eq_getElem]
    exact (List.Nodup.getElem_inj_iff hn).mp
  exact hik (h2 h1)

theorem activePred_iff (now : ℚ) (j : Job) :
    activePred now j = true ↔
      j.finished = false ∧ j.arrivalTime ≤ now ∧ 0 < j.remainingTime := by
  unfold activePred
  simp [Bool.and_assoc]

theorem nextArrival_gt (js : List Job) (now H : ℚ) (h : now < H) :
    now < nextArrival js now H := by
  unfold nextArrival
  suffices hgen : ∀ (l : List Job) (acc : ℚ), now < acc →
      now < l.foldl
        (fun acc j =>
          if j.finished = false ∧ now < j.arrivalTime ∧ j.arrivalTime < acc
          then j.arrivalTime else acc)
        acc by
    exact hgen js H h
  intro l
  induction l with
  | nil => intro acc hacc; exact hacc
  | cons x r ih =>
    intro acc hacc
    simp only [List.foldl_cons]
    apply ih
    by_cases hc : x.finished = false ∧ now < x.arrivalTime ∧
        x.arrivalTime < acc
    · rw [if_pos hc]; exact hc.2.1
    · rw [if_neg hc]; exact hacc

theorem sliceTime_append (l : List Slice) (a : Slice) (ti ji : Nat) :
    sliceTime (l ++ [a]) ti ji =
      sliceTime l ti ji +
        (if a.taskIndex = ti ∧ a.jobId = ji then a.endTime - a.start else 0) := by
  induction l with
  | nil => simp [sliceTime]
  | cons x r ih =>
    simp only [List.cons_append, sliceTime, List.append_eq]
    rw [ih]
    ring

theorem setLastEnd_append (l : List Slice) (a : Slice) (e : ℚ) :
    setLastEnd (l ++ [a]) e = l ++ [{ a with endTime := e }] := by
  induction l with
  | nil => rfl
  | cons x r ih =>
    cases r with
    | nil => rfl
    | cons y t =>
      simp only [List.cons_append] at ih ⊢
      rw [show setLastEnd (x :: y :: (t ++ [a])) e =
        x :: setLastEnd (y :: (t ++ [a])) e from rfl, ih]

theorem chooseIndex_mem (js : List Job) (act : List Nat) (ci : Nat)
    (h : chooseIndex js act = some ci) : ci ∈ act := by
  match act with
  | [] => exact absurd h (by simp [chooseIndex])
  | [i] =>
    simp only [chooseIndex, Option.some.injEq] at h
    subst h
    exact List.mem_singleton.mpr rfl
  | i :: i2 :: rest =>
    simp only [chooseIndex] at h
    rcases hh : (sortVDL ((i :: i2 :: rest).map (jget js))).head? with _ | t0
    · rw [hh] at h
      exact absurd h (by simp)
    · rw [hh] at h
      exact List.mem_of_find?_eq_some h

theorem updateRunJob_taskIndex (j : Job) (now nd : ℚ) :
    (updateRunJob j now nd).taskIndex = j.taskIndex := by
  unfold updateRunJob
  split_ifs <;> rfl

theorem updateRunJob_jobId (j : Job) (now nd : ℚ) :
    (updateRunJob j now nd).jobId = j.jobId := by
  unfold updateRunJob
  split_ifs <;> rfl

theorem updateRunJob_arrivalTime (j : Job) (now nd : ℚ) :
    (updateRunJob j now nd).arrivalTime = j.arrivalTime := by
  unfold updateRunJob
  split_ifs <;> rfl

theorem updateRunJob_actualExecTime (j : Job) (now nd : ℚ) :
    (updateRunJob j now nd).actualExecTime = j.actualExecTime := by
  unfold updateRunJob
  split_ifs <;> rfl

theorem updateRunJob_remainingTime (j : Job) (now nd : ℚ) :
    (updateRunJob j now nd).remainingTime =
      j.remainingTime - (nd - now) := by
  unfold updateRunJob
  split_ifs <;> rfl

theorem updateRunJob_idOf (j : Job) (now nd : ℚ) :
    idOf (updateRunJob j now nd) = idOf j := by
  unfold idOf
  rw [updateRunJob_taskIndex, updateRunJob_jobId]

theorem updateRunJob_unfinished (j : Job) (now nd : ℚ)
    (h : (updateRunJob j now nd).finished = false) :
    eps < (updateRunJob j now nd).remainingTime := by
  unfold updateRunJob at h ⊢
  by_cases hc : j.remainingTime - (nd - now) ≤ eps
  · rw [if_pos hc] at h
    exact absurd h (by simp)
  · rw [if_neg hc]
    exact not_le.mp hc

theorem eps_pos : (0 : ℚ) < eps := by norm_num [eps]

theorem jobsSet_parts (js0 : List Job) (s : SchedState)
    (hinv : SchedInv js0 s) (ci : Nat) (hciLen : ci < s.jobs.length)
    (nd : ℚ)
    (h2 : nd ≤ s.now + (jget s.jobs ci).remainingTime) :
    ((s.jobs.set ci (updateRunJob (jget s.jobs ci) s.now nd)).length =
      js0.length) ∧
    (∀ k, k < js0.length →
      idOf (jget (s.jobs.set ci (updateRunJob (jget s.jobs ci) s.now nd)) k) =
        idOf (jget js0 k) ∧
      (jget (s.jobs.set ci (updateRunJob (jget s.jobs ci) s.now nd)) k).actualExecTime =
        (jget js0 k).actualExecTime ∧
      (jget (s.jobs.set ci (updateRunJob (jget s.jobs ci) s.now nd)) k).arrivalTime =
        (jget js0 k).arrivalTime) ∧
    ((s.jobs.set ci (updateRunJob (jget s.jobs ci) s.now nd)).map idOf).Nodup ∧
    (∀ jb ∈ s.jobs.set ci (updateRunJob (jget s.jobs ci) s.now nd),
      0 ≤ jb.remainingTime) ∧
    jget (s.jobs.set ci (updateRunJob (jget s.jobs ci) s.now nd)) ci =
      updateRunJob (jget s.jobs ci) s.now nd := by
  obtain ⟨hlen, himm, hnodup, hrem, hbill, hse, hchain, hlast⟩ := hinv
  have hgetset : jget (s.jobs.set ci (updateRunJob (jget s.jobs ci) s.now nd)) ci =
      updateRunJob (jget s.jobs ci) s.now nd :=
    jget_set_self s.jobs ci _ hciLen
  refine ⟨by rw [List.length_set]; exact hlen, ?_, ?_, ?_, hgetset⟩
  · intro k hk
    by_cases hkc : k = ci
    · subst hkc
      rw [hgetset, updateRunJob_idOf, updateRunJob_actualExecTime,
        updateRunJob_arrivalTime]
      exact himm k hk
    · rw [jget_set_ne s.jobs ci k _ hkc]
      exact himm k hk
  · rw [map_set_same idOf s.jobs ci _ defaultJob hciLen
      (by rw [updateRunJob_idOf]; rfl)]
    exact hnodup
  · intro jb hjb
    rcases List.mem_or_eq_of_mem_set hjb with hold | hnew
    · exact hrem jb hold
    · subst hnew
      rw [updateRunJob_remainingTime]
      linarith

theorem schedInv_run_open (js0 : List Job) (s : SchedState)
    (hinv : SchedInv js0 s) (ci : Nat) (hm : ci ∈ activeIndices s)
    (hopen : s.lastJobIndex ≠ some ci) (nd : ℚ)
    (h1 : s.now < nd)
    (h2 : nd ≤ s.now + (jget s.jobs ci).remainingTime) :
    SchedInv js0
      { jobs := s.jobs.set ci (updateRunJob (jget s.jobs ci) s.now nd),
        slices := s.slices ++
          [{ start := s.now, endTime := nd,
             taskIndex := (jget s.jobs ci).taskIndex,
             jobId := (jget s.jobs ci).jobId }],
        now := nd, lastJobIndex := some ci } := by
  obtain ⟨hciLen, hactv⟩ := (mem_activeIndices s ci).mp hm
  obtain ⟨hfin, harr, hrempos⟩ := (activePred_iff _ _).mp hactv
  obtain ⟨hp1, hp2, hp3, hp4, hget⟩ := jobsSet_parts js0 s hinv ci hciLen nd h2
  obtain ⟨hlen, himm, hnodup, hrem, hbill, hse, hchain, hlast⟩ := hinv
  refine ⟨hp1, hp2, hp3, hp4, ?_, ?_, ?_, ?_⟩
  · -- billing
    intro k hk
    dsimp only
    by_cases hkc : k = ci
    · subst hkc
      rw [hget, updateRunJob_actualExecTime, updateRunJob_remainingTime,
        updateRunJob_taskIndex, updateRunJob_jobId, sliceTime_append]
      rw [if_pos ⟨rfl, rfl⟩]
      have hb := hbill k hk
      linarith
    · rw [jget_set_ne s.jobs ci k _ hkc, sliceTime_append]
      have hidne := ids_ne_of_nodup s.jobs hnodup ci k hciLen
        (by rw [hlen]; exact hk) (Ne.symm hkc)
      rw [if_neg (by
        intro hc
        obtain ⟨hc1, hc2⟩ := hc
        dsimp only at hc1 hc2
        exact hidne (by unfold idOf; rw [hc1, hc2]))]
      rw [add_zero]
      exact hbill k hk
  · -- start < end
    intro a ha
    dsimp only at ha
    rcases List.mem_append.mp ha with hold | hnew
    · exact hse a hold
    · rcases List.mem_singleton.mp hnew with rfl
      exact h1
  · -- chain
    dsimp only
    rw [List.chain'_append]
    refine ⟨hchain, List.chain'_singleton _, ?_⟩
    intro x hx y hy
    simp only [List.head?_cons, Option.mem_def, Option.some.injEq] at hy
    subst hy
    rcases hlj : s.lastJobIndex with _ | lj
    · unfold lastStateOK at hlast
      rw [hlj] at hlast
      rw [hlast] at hx
      simp at hx
    · unfold lastStateOK at hlast
      rw [hlj] at hlast
      obtain ⟨hljLen, hsne, hlastc, harrlj⟩ := hlast
      obtain ⟨hid, hend, hunf⟩ := hlastc x hx
      constructor
      · exact hend
      · rw [hid]
        have hljci : lj ≠ ci := by
          intro heq
          exact hopen (by rw [hlj, heq])
        exact ids_ne_of_nodup s.jobs hnodup lj ci hljLen hciLen hljci
  · -- lastStateOK
    unfold lastStateOK
    dsimp only
    refine ⟨by rw [List.length_set]; exact hciLen, by simp, ?_, ?_⟩
    · intro a ha
      rw [List.getLast?_concat] at ha
      simp only [Option.mem_def, Option.some.injEq] at ha
      subst ha
      refine ⟨?_, le_refl _, ?_⟩
      · rw [hget, updateRunJob_idOf]
        rfl
      · intro hf
        refine ⟨rfl, ?_⟩
        rw [hget] at hf ⊢
        exact updateRunJob_unfinished _ _ _ hf
    · rw [hget, updateRunJob_arrivalTime]
      linarith

theorem schedInv_run_extend (js0 : List Job) (s : SchedState)
    (hinv : SchedInv js0 s) (ci : Nat) (hm : ci ∈ activeIndices s)
    (hext : s.lastJobIndex = some ci) (nd : ℚ)
    (h1 : s.now < nd)
    (h2 : nd ≤ s.now + (jget s.jobs ci).remainingTime) :
    SchedInv js0
      { jobs := s.jobs.set ci (updateRunJob (jget s.jobs ci) s.now nd),
        slices := setLastEnd s.slices nd,
        now := nd, lastJobIndex := some ci } := by
  obtain ⟨hciLen, hactv⟩ := (mem_activeIndices s ci).mp hm
  obtain ⟨hfin, harr, hrempos⟩ := (activePred_iff _ _).mp hactv
  obtain ⟨hp1, hp2, hp3, hp4, hget⟩ := jobsSet_parts js0 s hinv ci hciLen nd h2
  obtain ⟨hlen, himm, hnodup, hrem, hbill, hse, hchain, hlast⟩ := hinv
  unfold lastStateOK at hlast
  rw [hext] at hlast
  obtain ⟨hciLen2, hsne, hlastc, harrci⟩ := hlast
  have hdec : s.slices.dropLast ++ [s.slices.getLast hsne] = s.slices :=
    List.dropLast_append_getLast hsne
  have hgl : s.slices.getLast? = some (s.slices.getLast hsne) :=
    List.getLast?_eq_getLast s.slices hsne
  obtain ⟨hid, hend, hunf⟩ := hlastc (s.slices.getLast hsne) hgl
  obtain ⟨hendnow, hremeps⟩ := hunf hfin
  have hati : (s.slices.getLast hsne).taskIndex = (jget s.jobs ci).taskIndex := by
    have := congrArg Prod.fst hid
    simpa [idSl, idOf] using this
  have haji : (s.slices.getLast hsne).jobId = (jget s.jobs ci).jobId := by
    have := congrArg Prod.snd hid
    simpa [idSl, idOf] using this
  have hsetd : setLastEnd s.slices nd =
      s.slices.dropLast ++ [{ s.slices.getLast hsne with endTime := nd }] := by
    conv_lhs => rw [← hdec]
    rw [setLastEnd_append]
  have hastart : (s.slices.getLast hsne).start < s.now := by
    have := hse (s.slices.getLast hsne) (List.getLast_mem hsne)
    rw [hendnow] at this
    exact this
  refine ⟨hp1, hp2, hp3, hp4, ?_, ?_, ?_, ?_⟩
  · -- billing
    intro k hk
    dsimp only
    by_cases hkc : k = ci
    · subst hkc
      rw [hget, updateRunJob_actualExecTime, updateRunJob_remainingTime,
        updateRunJob_taskIndex, updateRunJob_jobId, hsetd, sliceTime_append]
      rw [if_pos (by exact ⟨hati, haji⟩)]
      have hb := hbill k hk
      rw [← hdec, sliceTime_append, if_pos ⟨hati, haji⟩, hendnow] at hb
      dsimp only at hb ⊢
      linarith
    · rw [jget_set_ne s.jobs ci k _ hkc, hsetd, sliceTime_append]
      have hidne := ids_ne_of_nodup s.jobs hnodup ci k hciLen
        (by rw [hlen]; exact hk) (Ne.symm hkc)
      have hcneg : ¬({ s.slices.getLast hsne with endTime := nd }.taskIndex =
          (jget s.jobs k).taskIndex ∧
          { s.slices.getLast hsne with endTime := nd }.jobId =
          (jget s.jobs k).jobId) := by
        intro hc
        obtain ⟨hc1, hc2⟩ := hc
        dsimp only at hc1 hc2
        rw [hati] at hc1
        rw [haji] at hc2
        exact hidne (by unfold idOf; rw [hc1, hc2])
      rw [if_neg hcneg, add_zero]
      have hb := hbill k hk
      rw [← hdec, sliceTime_append] at hb
      rw [if_neg (by
        intro hc
        obtain ⟨hc1, hc2⟩ := hc
        rw [hati] at hc1
        rw [haji] at hc2
        exact hidne (by unfold idOf; rw [hc1, hc2])), add_zero] at hb
      exact hb
  · -- start < end
    intro x hx
    dsimp only at hx
    rw [hsetd] at hx
    rcases List.mem_append.mp hx with hold | hnew
    · exact hse x ((List.dropLast_sublist s.slices).subset hold)
    · rcases List.mem_singleton.mp hnew with rfl
      dsimp only
      linarith
  · -- chain
    dsimp only
    rw [hsetd]
    rw [← hdec] at hchain
    rw [List.chain'_append] at hchain ⊢
    obtain ⟨hcl, _, hlink⟩ := hchain
    refine ⟨hcl, List.chain'_singleton _, ?_⟩
    intro x hx y hy
    simp only [List.head?_cons, Option.mem_def, Option.some.injEq] at hy
    subst hy
    have hr := hlink x hx (s.slices.getLast hsne) (by simp)
    obtain ⟨hr1, hr2⟩ := hr
    constructor
    · exact hr1
    · intro hcontra
      apply hr2
      unfold idSl at hcontra ⊢
      dsimp only at hcontra
      exact hcontra
  · -- lastStateOK
    unfold lastStateOK
    dsimp only
    refine ⟨by rw [List.length_set]; exact hciLen, ?_, ?_, ?_⟩
    · rw [hsetd]
      simp
    · intro x hx
      rw [hsetd, List.getLast?_concat] at hx
      simp only [Option.mem_def, Option.some.injEq] at hx
      subst hx
      refine ⟨?_, le_refl _, ?_⟩
      · rw [hget, updateRunJob_idOf]
        unfold idSl idOf
        dsimp only
        rw [hati, haji]
      · intro hf
        refine ⟨rfl, ?_⟩
        rw [hget] at hf ⊢
        exact updateRunJob_unfinished _ _ _ hf
    · rw [hget, updateRunJob_arrivalTime]
      linarith

theorem schedInv_idle (js0 : List Job) (s : SchedState)
    (hinv : SchedInv js0 s) (hact : activeIndices s = [])
    (na : ℚ) (hcond : s.now < na) :
    SchedInv js0 { s with now := na } := by
  obtain ⟨hlen, himm, hnodup, hrem, hbill, hse, hchain, hlast⟩ := hinv
  refine ⟨hlen, himm, hnodup, hrem, hbill, hse, hchain, ?_⟩
  unfold lastStateOK at hlast ⊢
  dsimp only
  rcases hlj : s.lastJobIndex with _ | ci
  · rw [hlj] at hlast
    exact hlast
  · rw [hlj] at hlast
    obtain ⟨hci, hsne, hlastc, harr⟩ := hlast
    refine ⟨hci, hsne, ?_, le_trans harr (le_of_lt hcond)⟩
    intro a ha
    obtain ⟨hid, hend, hunf⟩ := hlastc a ha
    refine ⟨hid, le_trans hend (le_of_lt hcond), ?_⟩
    intro hf
    obtain ⟨hend2, hrem2⟩ := hunf hf
    have hactv : activePred s.now (jget s.jobs ci) = true :=
      (activePred_iff _ _).mpr ⟨hf, harr, lt_trans eps_pos hrem2⟩
    have hmem : ci ∈ activeIndices s :=
      (mem_activeIndices s ci).mpr ⟨hci, hactv⟩
    rw [hact] at hmem
    exact absurd hmem (List.not_mem_nil ci)

theorem schedInv_step (H : ℚ) (js0 : List Job) (s : SchedState)
    (hinv : SchedInv js0 s) (hnow : s.now < H) :
    SchedInv js0 (stepState (schedStep H s)) := by
  unfold schedStep
  rcases hact : activeIndices s with _ | ⟨i, rest⟩
  · dsimp only
    split_ifs with hcond
    · exact schedInv_idle js0 s hinv hact _ hcond.1
    · exact hinv
  · dsimp only
    rcases hsel : chooseIndex s.jobs (i :: rest) with _ | ci
    · exact hinv
    · have hm : ci ∈ activeIndices s := by
        rw [hact]
        exact chooseIndex_mem s.jobs (i :: rest) ci hsel
      obtain ⟨hciLen, hactv⟩ := (mem_activeIndices s ci).mp hm
      obtain ⟨hfin, harr, hrempos⟩ := (activePred_iff _ _).mp hactv
      have h1 : s.now <
          (if nextArrival s.jobs s.now H <
              s.now + (jget s.jobs ci).remainingTime
           then nextArrival s.jobs s.now H
           else s.now + (jget s.jobs ci).remainingTime) := by
        split_ifs with hc
        · exact nextArrival_gt s.jobs s.now H hnow
        · linarith
      have h2 :
          (if nextArrival s.jobs s.now H <
              s.now + (jget s.jobs ci).remainingTime
           then nextArrival s.jobs s.now H
           else s.now + (jget s.jobs ci).remainingTime) ≤
            s.now + (jget s.jobs ci).remainingTime := by
        split_ifs with hc
        · exact le_of_lt hc
        · exact le_refl _
      dsimp only
      by_cases hopen : s.lastJobIndex ≠ some ci
      · rw [if_pos hopen]
        by_cases hcap : maxSlices ≤ s.slices.length + 1
        · rw [if_pos hcap]
          exact hinv
        · rw [if_neg hcap]
          exact schedInv_run_open js0 s hinv ci hm hopen _ h1 h2
      · rw [if_neg hopen]
        exact schedInv_run_extend js0 s hinv ci hm (not_not.mp hopen) _ h1 h2

theorem schedInv_advance (H : ℚ) (js0 : List Job)
    (p : SchedState × SimStatus) (hinv : SchedInv js0 p.1) :
    SchedInv js0 (schedAdvance H p).1 := by
  rcases p with ⟨s, st⟩
  cases st with
  | running =>
    unfold schedAdvance
    dsimp only
    split_ifs with hc
    · have hstep := schedInv_step H js0 s hinv hc
      rcases hst : schedStep H s with s2 | s2 | s2 | s2 <;>
        rw [hst] at hstep <;> exact hstep
    · exact hinv
  | stopped => exact hinv
  | capacityStop => exact hinv
  | selectStop => exact hinv

theorem schedInit_inv (js0 : List Job)
    (h1 : ∀ j ∈ js0, j.remainingTime = j.actualExecTime)
    (h2 : ∀ j ∈ js0, 0 ≤ j.actualExecTime)
    (h3 : (js0.map idOf).Nodup) :
    SchedInv js0 (schedInit js0) := by
  refine ⟨rfl, ?_, h3, ?_, ?_, ?_, ?_, ?_⟩
  · intro k hk
    exact ⟨rfl, rfl, rfl⟩
  · intro j hj
    rw [h1 j hj]
    exact h2 j hj
  · intro k hk
    have hmem : jget js0 k ∈ js0 := jget_mem js0 k hk
    show (jget js0 k).actualExecTime - (jget js0 k).remainingTime =
      sliceTime [] (jget js0 k).taskIndex (jget js0 k).jobId
    rw [h1 _ hmem]
    simp [sliceTime]
  · intro a ha
    exact absurd ha (List.not_mem_nil a)
  · exact List.chain'_nil
  · rfl

theorem schedInv_iter (H : ℚ) (js0 : List Job)
    (h1 : ∀ j ∈ js0, j.remainingTime = j.actualExecTime)
    (h2 : ∀ j ∈ js0, 0 ≤ j.actualExecTime)
    (h3 : (js0.map idOf).Nodup) (n : Nat) :
    SchedInv js0 (schedIter H js0 n).1 := by
  induction n with
  | zero => exact schedInit_inv js0 h1 h2 h3
  | succ n ih =>
    unfold schedIter at ih ⊢
    rw [Function.iterate_succ_apply']
    exact schedInv_advance H js0 _ ih

theorem chain_le_start (sl : List Slice) :
    ∀ x, List.Chain' sliceAdj (x :: sl) →
      (∀ a ∈ x :: sl, a.start < a.endTime) →
      ∀ y ∈ sl, x.endTime ≤ y.start := by
  induction sl with
  | nil =>
    intro x _ _ y hy
    exact absurd hy (List.not_mem_nil y)
  | cons z t ih =>
    intro x hch hse y hy
    have hxz : sliceAdj x z := List.chain'_cons.mp hch |>.1
    rcases List.mem_cons.mp hy with rfl | hyt
    · exact hxz.1
    · have hzt := ih z (List.chain'_cons.mp hch).2
        (fun a ha => hse a (List.mem_cons_of_mem x ha)) y hyt
      have hz : z.start < z.endTime :=
        hse z (List.mem_cons_of_mem x (List.mem_cons_self z t))
      linarith [hxz.1]

theorem chain_pairwise_start (sl : List Slice)
    (hch : List.Chain' sliceAdj sl)
    (hse : ∀ a ∈ sl, a.start < a.endTime) :
    List.Pairwise (fun a b => a.start < b.start) sl := by
  induction sl with
  | nil => exact List.Pairwise.nil
  | cons x r ih =>
    refine List.pairwise_cons.mpr ⟨?_, ?_⟩
    · intro y hy
      have hle := chain_le_start r x hch hse y hy
      have hx : x.start < x.endTime := hse x (List.mem_cons_self x r)
      linarith
    · exact ih (List.chain'_cons'.mp hch).2
        (fun a ha => hse a (List.mem_cons_of_mem x ha))

theorem schedAdvance_rem_mono (H : ℚ) (p : SchedState × SimStatus) (i : Nat) :
    (jget (schedAdvance H p).1.jobs i).remainingTime ≤
      (jget p.1.jobs i).remainingTime := by
  rcases p with ⟨s, st⟩
  cases st with
  | running =>
    unfold schedAdvance
    dsimp only
    split_ifs with hc
    · unfold schedStep
      rcases hact : activeIndices s with _ | ⟨a1, rest⟩
      · dsimp only
        split_ifs <;> exact le_refl _
      · dsimp only
        rcases hsel : chooseIndex s.jobs (a1 :: rest) with _ | ci
        · exact le_refl _
        · have hm : ci ∈ activeIndices s := by
            rw [hact]
            exact chooseIndex_mem s.jobs (a1 :: rest) ci hsel
          obtain ⟨hciLen, hactv⟩ := (mem_activeIndices s ci).mp hm
          obtain ⟨hfin, harr, hrempos⟩ := (activePred_iff _ _).mp hactv
          have h1 : s.now <
              (if nextArrival s.jobs s.now H <
                  s.now + (jget s.jobs ci).remainingTime
               then nextArrival s.jobs s.now H
               else s.now + (jget s.jobs ci).remainingTime) := by
            split_ifs with hcc
            · exact nextArrival_gt s.jobs s.now H hc
            · linarith
          dsimp only
          by_cases hopen : s.lastJobIndex ≠ some ci
          · rw [if_pos hopen]
            by_cases hcap : maxSlices ≤ s.slices.length + 1
            · rw [if_pos hcap]
            · rw [if_neg hcap]
              dsimp only
              by_cases hic : i = ci
              · subst hic
                rw [jget_set_self s.jobs i _ hciLen,
                  updateRunJob_remainingTime]
                linarith
              · rw [jget_set_ne s.jobs ci i _ hic]
          · rw [if_neg hopen]
            dsimp only
            by_cases hic : i = ci
            · subst hic
              rw [jget_set_self s.jobs i _ hciLen,
                updateRunJob_remainingTime]
              linarith
            · rw [jget_set_ne s.jobs ci i _ hic]
    · exact le_refl _
  | stopped => exact le_refl _
  | capacityStop => exact le_refl _
  | selectStop => exact le_refl _

/-- C5: after every iteration of the scheduling loop, every job's remaining
time is non-negative and non-increasing from one iteration to the next, and
the executed amount (original actual_exec minus remaining) is exactly the
total duration of the slices bearing that job's (task, job) identity. -/
theorem edfvd_remaining_and_billing (H : ℚ) (js0 : List Job)
    (h1 : ∀ j ∈ js0, j.remainingTime = j.actualExecTime)
    (h2 : ∀ j ∈ js0, 0 ≤ j.actualExecTime)
    (h3 : (js0.map idOf).Nodup) (n i : Nat) (hi : i < js0.length) :
    0 ≤ (jget (schedIter H js0 n).1.jobs i).remainingTime ∧
    (jget (schedIter H js0 (n + 1)).1.jobs i).remainingTime ≤
      (jget (schedIter H js0 n).1.jobs i).remainingTime ∧
    (jget js0 i).actualExecTime -
        (jget (schedIter H js0 n).1.jobs i).remainingTime =
      sliceTime (schedIter H js0 n).1.slices
        (jget js0 i).taskIndex (jget js0 i).jobId := by
  obtain ⟨hlen, himm, hnodup, hrem, hbill, hse, hchain, hlast⟩ :=
    schedInv_iter H js0 h1 h2 h3 n
  have hjlen : i < (schedIter H js0 n).1.jobs.length := by
    rw [hlen]; exact hi
  refine ⟨?_, ?_, ?_⟩
  · exact hrem _ (jget_mem _ i hjlen)
  · have hmono := schedAdvance_rem_mono H (schedIter H js0 n) i
    have hit : schedIter H js0 (n + 1) = schedAdvance H (schedIter H js0 n) := by
      unfold schedIter
      rw [Function.iterate_succ_apply']
    rw [hit]
    exact hmono
  · have hb := hbill i hi
    obtain ⟨hido, hact, harr⟩ := himm i hi
    have hti : (jget (schedIter H js0 n).1.jobs i).taskIndex =
        (jget js0 i).taskIndex := by
      simpa [idOf] using congrArg Prod.fst hido
    have hji : (jget (schedIter H js0 n).1.jobs i).jobId =
        (jget js0 i).jobId := by
      simpa [idOf] using congrArg Prod.snd hido
    rw [hact, hti, hji] at hb
    exact hb

/-- Witness for C5 at a concrete one-job input after one iteration. -/
theorem edfvd_remaining_and_billing_witness :
    ((∀ j ∈ c5Jobs, j.remainingTime = j.actualExecTime) ∧
      (∀ j ∈ c5Jobs, 0 ≤ j.actualExecTime) ∧
      (c5Jobs.map idOf).Nodup ∧ 0 < c5Jobs.length) ∧
    (0 ≤ (jget (schedIter 4 c5Jobs 1).1.jobs 0).remainingTime ∧
      (jget (schedIter 4 c5Jobs 2).1.jobs 0).remainingTime ≤
        (jget (schedIter 4 c5Jobs 1).1.jobs 0).remainingTime ∧
      (jget c5Jobs 0).actualExecTime -
          (jget (schedIter 4 c5Jobs 1).1.jobs 0).remainingTime =
        sliceTime (schedIter 4 c5Jobs 1).1.slices
          (jget c5Jobs 0).taskIndex (jget c5Jobs 0).jobId) :=
  ⟨⟨by decide, by decide, by decide, by decide⟩,
    edfvd_remaining_and_billing 4 c5Jobs (by decide) (by decide) (by decide)
      1 0 (by decide)⟩

/-- C6 (amended): after every iteration the emitted slice stream satisfies
start < end for each slice, consecutive slices never overlap (the earlier
one ends no later than the later one starts, with an idle gap allowed) and
never carry the same identity, and the slices are totally ordered by start. -/
theorem edfvd_slice_stream_wellformed (H : ℚ) (js0 : List Job)
    (h1 : ∀ j ∈ js0, j.remainingTime = j.actualExecTime)
    (h2 : ∀ j ∈ js0, 0 ≤ j.actualExecTime)
    (h3 : (js0.map idOf).Nodup) (n : Nat) :
    (∀ a ∈ (schedIter H js0 n).1.slices, a.start < a.endTime) ∧
    List.Chain' sliceAdj (schedIter H js0 n).1.slices ∧
    List.Pairwise (fun a b => a.start < b.start)
      (schedIter H js0 n).1.slices := by
  obtain ⟨hlen, himm, hnodup, hrem, hbill, hse, hchain, hlast⟩ :=
    schedInv_iter H js0 h1 h2 h3 n
  exact ⟨hse, hchain, chain_pairwise_start _ hchain hse⟩

/-- Witness for C6 at the concrete one-job input. -/
theorem edfvd_slice_stream_wellformed_witness :
    ((∀ j ∈ c5Jobs, j.remainingTime = j.actualExecTime) ∧
      (∀ j ∈ c5Jobs, 0 ≤ j.actualExecTime) ∧
      (c5Jobs.map idOf).Nodup) ∧
    ((∀ a ∈ (schedIter 4 c5Jobs 2).1.slices, a.start < a.endTime) ∧
      List.Chain' sliceAdj (schedIter 4 c5Jobs 2).1.slices ∧
      List.Pairwise (fun a b => a.start < b.start)
        (schedIter 4 c5Jobs 2).1.slices) :=
  ⟨⟨by decide, by decide, by decide⟩,
    edfvd_slice_stream_wellformed 4 c5Jobs (by decide) (by decide)
      (by decide) 2⟩

/-- Counterexample to C6 as stated: on this input the second slice ends at
time 1 but the third slice starts at time 2 (the processor is idle in
between), so consecutive slices do not always satisfy start(i+1) = end(i). -/
theorem slice_contiguity_counterexample :
    pipelineSlices (runPipeline (some c6TaskToks) (some c6ExecToks)) =
      [{ start := 0, endTime := 1 / 2, taskIndex := 0, jobId := 0 },
       { start := 1 / 2, endTime := 1, taskIndex := 1, jobId := 0 },
       { start := 2, endTime := 5 / 2, taskIndex := 0, jobId := 1 }] ∧
    ¬((sget (pipelineSlices (runPipeline (some c6TaskToks)
          (some c6ExecToks))) 2).start =
      (sget (pipelineSlices (runPipeline (some c6TaskToks)
          (some c6ExecToks))) 1).endTime) := by
  with_unfolding_all decide

/- ----------------------------------------------------------------
   C2: preemption counting.
   ---------------------------------------------------------------- -/

theorem filter_range_succ (n : Nat) (p : Nat → Bool) :
    ((List.range (n + 1)).filter p).length =
      (if p 0 then 1 else 0) +
        ((List.range n).filter fun k => p (k + 1)).length := by
  rw [List.range_succ_eq_map, List.filter_cons]
  have hmap : ((List.range n).map Nat.succ).filter p =
      ((List.range n).filter fun k => p (k + 1)).map Nat.succ := by
    have h := (map_filter_comp Nat.succ p (List.range n)).symm
    simpa [Nat.succ_eq_add_one] using h
  split_ifs with h
  · simp only [List.length_cons, hmap, List.length_map]
    omega
  · simp only [hmap, List.length_map]
    omega

theorem transitionCount_cons_eq (prev : Slice) (t : List Slice) :
    transitionCount (prev :: t) =
      ((List.range t.length).filter fun k =>
        decide (idSl (sget t k) ≠ idSl (sget (prev :: t) k))).length := by
  unfold transitionCount
  show ((List.range (t.length + 1)).filter fun i =>
      decide (0 < i) && decide (idSl (sget (prev :: t) i) ≠
        idSl (sget (prev :: t) (i - 1)))).length = _
  rw [filter_range_succ]
  have hhead : (decide (0 < 0) && decide (idSl (sget (prev :: t) 0) ≠
      idSl (sget (prev :: t) (0 - 1)))) = false := by simp
  rw [hhead]
  simp only [Bool.false_eq_true, if_false, Nat.zero_add]
  congr 1
  apply List.filter_congr
  intro k _
  have h1 : decide (0 < k + 1) = true := by simp
  rw [h1, Bool.true_and]
  have h2 : (k + 1 - 1) = k := rfl
  rw [h2]
  have h3 : sget (prev :: t) (k + 1) = sget t k := by
    simp [sget, List.getD_cons_succ]
  rw [h3]

theorem transAux_eq (t : List Slice) :
    ∀ prev : Slice,
      transAux prev t =
        ((List.range t.length).filter fun k =>
          decide (idSl (sget t k) ≠ idSl (sget (prev :: t) k))).length := by
  induction t with
  | nil => intro prev; rfl
  | cons x r ih =>
    intro prev
    show (if idSl x ≠ idSl prev then 1 else 0) + transAux x r = _
    rw [ih x]
    rw [show ((x :: r : List Slice).length) = r.length + 1 from rfl,
      filter_range_succ]
    rw [show (if (fun k => decide (idSl (sget (x :: r) k) ≠
        idSl (sget (prev :: x :: r) k))) 0 = true then 1 else 0) =
      (if idSl x ≠ idSl prev then 1 else 0) from by
        simp only [decide_eq_true_eq]
        rfl]
    rfl

theorem transitionCount_eq_transAux (prev : Slice) (t : List Slice) :
    transitionCount (prev :: t) = transAux prev t := by
  rw [transitionCount_cons_eq, transAux_eq]

theorem preemptionsFR_cons_eq_transAux (t : List Slice) :
    ∀ a : Slice, preemptionsFR (a :: t) = transAux a t := by
  induction t with
  | nil => intro a; rfl
  | cons b r ih =>
    intro a
    show (if idSl b ≠ idSl a then 1 else 0) + preemptionsFR (b :: r) =
      (if idSl b ≠ idSl a then 1 else 0) + transAux b r
    rw [ih b]

theorem preemptionsFR_eq_transitionCount (sl : List Slice) :
    preemptionsFR sl = transitionCount sl := by
  cases sl with
  | nil => rfl
  | cons a t =>
    rw [preemptionsFR_cons_eq_transAux, transitionCount_eq_transAux]

theorem preemptionsFR_of_chain (sl : List Slice) :
    List.Chain' sliceAdj sl → sl ≠ [] →
      preemptionsFR sl = sl.length - 1 := by
  induction sl with
  | nil =>
    intro _ h
    exact absurd rfl h
  | cons a t ih =>
    intro hch _
    cases t with
    | nil => rfl
    | cons b r =>
      have hab : sliceAdj a b := (List.chain'_cons.mp hch).1
      have ht := ih (List.chain'_cons.mp hch).2 (by simp)
      rw [show preemptionsFR (a :: b :: r) =
        (if idSl b ≠ idSl a then 1 else 0) + preemptionsFR (b :: r) from rfl]
      rw [if_pos (Ne.symm hab.2), ht]
      simp only [List.length_cons]
      omega

/-- C2 (amended): the analyzer's preemption count equals the number of
identity transitions in the slice stream (the specification's index-based
formula) and is non-negative, and on every slice stream the scheduler emits
it equals the number of slices minus one (consecutive slices never share an
identity); it is not in general the number of slices minus the number of
distinct identities, because a preempted job may run again later. -/
theorem preemptions_eq_transitions (H : ℚ) (js0 : List Job)
    (h1 : ∀ j ∈ js0, j.remainingTime = j.actualExecTime)
    (h2 : ∀ j ∈ js0, 0 ≤ j.actualExecTime)
    (h3 : (js0.map idOf).Nodup) (n : Nat) :
    (∀ sl : List Slice, preemptionsFR sl = transitionCount sl) ∧
    ((schedIter H js0 n).1.slices ≠ [] →
      preemptionsFR (schedIter H js0 n).1.slices =
        (schedIter H js0 n).1.slices.length - 1) := by
  obtain ⟨hlen, himm, hnodup, hrem, hbill, hse, hchain, hlast⟩ :=
    schedInv_iter H js0 h1 h2 h3 n
  exact ⟨preemptionsFR_eq_transitionCount,
    preemptionsFR_of_chain _ hchain⟩

/-- Witness for the amended C2 at the concrete one-job input. -/
theorem preemptions_eq_transitions_witness :
    ((∀ j ∈ c5Jobs, j.remainingTime = j.actualExecTime) ∧
      (∀ j ∈ c5Jobs, 0 ≤ j.actualExecTime) ∧
      (c5Jobs.map idOf).Nodup ∧ (schedIter 4 c5Jobs 2).1.slices ≠ []) ∧
    preemptionsFR (schedIter 4 c5Jobs 2).1.slices =
      (schedIter 4 c5Jobs 2).1.slices.length - 1 :=
  ⟨⟨by decide, by decide, by decide, by with_unfolding_all decide⟩,
    (preemptions_eq_transitions 4 c5Jobs (by decide) (by decide) (by decide)
      2).2 (by with_unfolding_all decide)⟩

/-- Counterexample to C2 as stated: on this input the slice stream is
L1#0, H1#0, L1#0 again, so the analyzer reports 2 preemptions while the
number of slices minus the number of distinct identities is 3 - 2 = 1. -/
theorem preemption_identity_counterexample :
    pipelineSlices (runPipeline (some c2TaskToks) (some c2ExecToks)) =
      [{ start := 0, endTime := 5, taskIndex := 0, jobId := 0 },
       { start := 5, endTime := 8, taskIndex := 1, jobId := 0 },
       { start := 8, endTime := 9, taskIndex := 0, jobId := 0 }] ∧
    preemptionsFR
      (pipelineSlices (runPipeline (some c2TaskToks) (some c2ExecToks))) = 2 ∧
    (pipelineSlices (runPipeline (some c2TaskToks)
        (some c2ExecToks))).length -
      distinctIdCount
        (pipelineSlices (runPipeline (some c2TaskToks) (some c2ExecToks))) =
      1 := by
  with_unfolding_all decide

/- ----------------------------------------------------------------
   C8: parser error handling.
   ---------------------------------------------------------------- -/

/-- C8 evaluated at the failing input: on a malformed second record the
parser silently truncates the task list to the one record before it and the
pipeline goes on to produce a schedule from the truncated set, and a missing
task file yields zero tasks and a silent early return, with no error value
anywhere. -/
theorem malformed_input_continues_truncated :
    parseTaskFileFR (some c8TaskToks) =
      [{ name := "T1", phase := 0, period := 4, wcet := 1, deadline := 4,
         critLevel := CritLevel.low, virtualDeadline := 4, jobCount := 0 }] ∧
    parseTaskFileFR none = [] ∧
    runPipeline none (some c8ExecToks) = PipelineResult.noTasks ∧
    pipelineSlices (runPipeline (some c8TaskToks) (some c8ExecToks)) =
      [{ start := 0, endTime := 2, taskIndex := 0, jobId := 0 }] := by
  with_unfolding_all decide

/- ----------------------------------------------------------------
   C9: capacity overflow truncates silently.
   ---------------------------------------------------------------- -/

theorem buildJobsForTask_capacity (t : TaskInfo) (tIdx : Nat) (H : ℚ) :
    ∀ (ets : List ℚ) (j : Nat) (acc : List Job),
      acc.length < maxJobs →
      maxJobs ≤ acc.length + ets.length →
      (∀ m, m < ets.length →
        t.phase + ((j + m : Nat) : ℚ) * t.period < H) →
      (buildJobsForTask t tIdx H ets j acc).2 = true ∧
      (buildJobsForTask t tIdx H ets j acc).1.length = maxJobs := by
  intro ets
  induction ets with
  | nil =>
    intro j acc h1 h2 h3
    simp only [List.length_nil, Nat.add_zero] at h2
    omega
  | cons et more ih =>
    intro j acc h1 h2 h3
    have harr : t.phase + ((j : Nat) : ℚ) * t.period < H := by
      have h0 := h3 0 (by simp)
      simpa using h0
    unfold buildJobsForTask
    rw [if_neg (not_le.mpr harr)]
    by_cases hc : maxJobs ≤ (acc ++ [mkJob t tIdx j et]).length
    · rw [if_pos hc]
      refine ⟨rfl, ?_⟩
      simp only [List.length_append, List.length_singleton] at hc ⊢
      omega
    · rw [if_neg hc]
      apply ih (j + 1)
      · simp only [List.length_append, List.length_singleton] at hc ⊢
        omega
      · simp only [List.length_append, List.length_singleton]
        simp only [List.length_cons] at h2
        omega
      · intro m hm
        have := h3 (m + 1) (by simp only [List.length_cons]; omega)
        have hcast : ((j + (m + 1) : Nat) : ℚ) = ((j + 1 + m : Nat) : ℚ) := by
          congr 1
          omega
        rw [hcast] at this
        exact this

theorem readNums_replicate (q : ℚ) :
    ∀ (n : Nat) (rest : List Token),
      readNums n (List.replicate n (Token.num q) ++ rest) =
        some (List.replicate n q, rest) := by
  intro n
  induction n with
  | zero => intro rest; rfl
  | succ n ih =>
    intro rest
    rw [List.replicate_succ, List.cons_append]
    unfold readNums
    rw [show tokNum (Token.num q) = some q from rfl]
    rw [ih rest]
    rw [List.replicate_succ]

theorem buildLoop_capacity_step (H : ℚ) (t : TaskInfo)
    (rest : List TaskInfo) (tIdx : Nat) (toks : List Token) (acc : List Job)
    (ets : List ℚ) (toks2 : List Token)
    (hc : ¬ t.jobCount = 0)
    (hr : readNums t.jobCount toks = some (ets, toks2))
    (hcap : (buildJobsForTask t tIdx H ets 0 acc).2 = true) :
    buildLoop H (t :: rest) tIdx toks acc =
      ((buildJobsForTask t tIdx H ets 0 acc).1, BuildRes.capacity) := by
  unfold buildLoop
  rw [if_neg hc, hr]
  rcases hb : buildJobsForTask t tIdx H ets 0 acc with ⟨jbs, flag⟩
  rw [hb] at hcap
  dsimp only at hcap
  subst hcap
  dsimp only
  rw [hb]

/-- C9 evaluated at a failing input: with the task table of c9Tasks after
job counting (task T1 carries 5001 jobs over the hyperperiod 10002, task T2
two more, 5003 in total), buildJobsArray stops at MAX_JOBS with a silently
truncated 5000-job list and, since the job list is non-empty, the caller
proceeds to schedule the truncated set; no error value is surfaced. -/
theorem capacity_overflow_truncates_silently :
    (buildJobsArrayFR [c9T1, c9T2] 10002 (some c9ExecToks)).2 =
      BuildRes.capacity ∧
    (buildJobsArrayFR [c9T1, c9T2] 10002 (some c9ExecToks)).1.length =
      maxJobs ∧
    (([c9T1, c9T2].map fun t => t.jobCount).sum = 5003 ∧ maxJobs = 5000) := by
  have hcap := buildJobsForTask_capacity c9T1 0 10002
    (List.replicate 5001 (1 : ℚ)) 0 []
    (by norm_num [maxJobs])
    (by
      rw [List.length_replicate, List.length_nil]
      norm_num [maxJobs])
    (by
      intro m hm
      rw [List.length_replicate] at hm
      rw [show c9T1.phase = (0 : ℚ) from rfl,
        show c9T1.period = (2 : ℚ) from rfl]
      have hm2 : (m : ℚ) ≤ 5000 := by
        exact_mod_cast Nat.lt_succ_iff.mp hm
      push_cast
      linarith)
  have hread : readNums c9T1.jobCount c9ExecToks =
      some (List.replicate 5001 (1 : ℚ), [Token.num 1, Token.num 1]) := by
    rw [show c9T1.jobCount = 5001 from rfl]
    rw [show c9ExecToks =
      List.replicate 5001 (Token.num 1) ++ [Token.num 1, Token.num 1] from rfl]
    exact readNums_replicate 1 5001 _
  have h0 : buildJobsArrayFR [c9T1, c9T2] 10002 (some c9ExecToks) =
      buildLoop 10002 [c9T1, c9T2] 0 c9ExecToks [] := rfl
  have hmain := buildLoop_capacity_step 10002 c9T1 [c9T2] 0 c9ExecToks []
    (List.replicate 5001 (1 : ℚ)) [Token.num 1, Token.num 1]
    (by decide) hread hcap.1
  rcases hb2 : buildJobsForTask c9T1 0 10002 (List.replicate 5001 (1 : ℚ)) 0 []
    with ⟨jbs, flag⟩
  rw [hb2] at hcap hmain
  dsimp only at hcap hmain
  rw [h0, hmain]
  refine ⟨rfl, ?_, ?_, rfl⟩
  · dsimp only
    exact hcap.2
  · rw [show ([c9T1, c9T2].map fun t => t.jobCount) = [5001, 2] from rfl]
    rfl

/- ----------------------------------------------------------------
   C7: determinism and absence of global-state residue.
   ---------------------------------------------------------------- -/

theorem overwriteArr_lt {α : Type} (f : Nat → α) (l : List α) (i : Nat)
    (h : i < l.length) : overwriteArr f l i = l.get ⟨i, h⟩ := by
  unfold overwriteArr
  rw [dif_pos h]

theorem overwriteArr_getD {α : Type} (f : Nat → α) (l : List α) (i : Nat)
    (d : α) (h : i < l.length) : overwriteArr f l i = l.getD i d := by
  rw [overwriteArr_lt f l i h, List.getD_eq_getElem l d h]
  exact List.get_eq_getElem l ⟨i, h⟩

theorem arrToList_overwriteArr {α : Type} (f : Nat → α) (l : List α) :
    arrToList (overwriteArr f l) l.length = l := by
  apply List.ext_getElem
  · simp [arrToList]
  · intro i h1 h2
    simp only [arrToList, List.getElem_map, List.getElem_range]
    rw [overwriteArr_lt f l i h2]
    exact List.get_eq_getElem l ⟨i, h2⟩

theorem arrToList_overwriteArr_of_len {α : Type} (f : Nat → α) (l : List α)
    (n : Nat) (hn : l.length = n) : arrToList (overwriteArr f l) n = l := by
  subst hn
  exact arrToList_overwriteArr f l

theorem hyperPeriodTasks_len (ts : List TaskInfo) :
    (computeHyperPeriodAndJobCounts ts).2.length = ts.length := by
  unfold computeHyperPeriodAndJobCounts
  by_cases h : ts.length = 0
  · rw [if_pos h]
  · rw [if_neg h]
    dsimp only
    rw [List.length_append, List.length_map, List.length_take,
      List.length_drop]
    omega

theorem edfvdParams_len (ts : List TaskInfo) :
    (computeEDFVDParameters ts).length = ts.length := by
  unfold computeEDFVDParameters
  rw [List.length_map]

theorem mem_setLastEnd (e : ℚ) :
    ∀ (sl : List Slice), ∀ a ∈ setLastEnd sl e,
      ∃ b ∈ sl, a.taskIndex = b.taskIndex := by
  intro sl
  induction sl with
  | nil =>
    intro a ha
    exact absurd ha (List.not_mem_nil a)
  | cons x t ih =>
    intro a ha
    cases t with
    | nil =>
      rw [show setLastEnd [x] e = [{ x with endTime := e }] from rfl] at ha
      rcases List.mem_singleton.mp ha with rfl
      exact ⟨x, List.mem_cons_self x [], rfl⟩
    | cons y r =>
      rw [show setLastEnd (x :: y :: r) e = x :: setLastEnd (y :: r) e
        from rfl] at ha
      rcases List.mem_cons.mp ha with heq | h2
      · rw [heq]
        exact ⟨x, List.mem_cons_self x (y :: r), rfl⟩
      · obtain ⟨b, hb, hbe⟩ := ih a h2
        exact ⟨b, List.mem_cons_of_mem x hb, hbe⟩

theorem buildJobsForTask_taskIndex (t : TaskInfo) (tIdx : Nat) (H : ℚ) :
    ∀ (ets : List ℚ) (j : Nat) (acc : List Job),
      ∀ jb ∈ (buildJobsForTask t tIdx H ets j acc).1,
        jb ∈ acc ∨ jb.taskIndex = tIdx := by
  intro ets
  induction ets with
  | nil =>
    intro j acc jb hjb
    exact Or.inl hjb
  | cons et more ih =>
    intro j acc jb hjb
    unfold buildJobsForTask at hjb
    by_cases hskip : H ≤ t.phase + (j : ℚ) * t.period
    · rw [if_pos hskip] at hjb
      exact ih (j + 1) acc jb hjb
    · rw [if_neg hskip] at hjb
      by_cases hc : maxJobs ≤ (acc ++ [mkJob t tIdx j et]).length
      · rw [if_pos hc] at hjb
        dsimp only at hjb
        rcases List.mem_append.mp hjb with h2 | h2
        · exact Or.inl h2
        · rcases List.mem_singleton.mp h2 with rfl
          exact Or.inr rfl
      · rw [if_neg hc] at hjb
        rcases ih (j + 1) _ jb hjb with h2 | h2
        · rcases List.mem_append.mp h2 with h3 | h3
          · exact Or.inl h3
          · rcases List.mem_singleton.mp h3 with rfl
            exact Or.inr rfl
        · exact Or.inr h2

theorem buildLoop_taskIndex (H : ℚ) :
    ∀ (l : List TaskInfo) (tIdx : Nat) (toks : List Token) (acc : List Job),
      (∀ jb ∈ acc, jb.taskIndex < tIdx) →
      ∀ jb ∈ (buildLoop H l tIdx toks acc).1,
        jb.taskIndex < tIdx + l.length := by
  intro l
  induction l with
  | nil =>
    intro tIdx toks acc hacc jb hjb
    rw [show buildLoop H [] tIdx toks acc = (acc, BuildRes.ok) from rfl]
      at hjb
    exact Nat.lt_of_lt_of_le (hacc jb hjb) (Nat.le_add_right tIdx 0)
  | cons t rest ih =>
    intro tIdx toks acc hacc jb hjb
    unfold buildLoop at hjb
    rw [List.length_cons]
    by_cases hc : t.jobCount = 0
    · rw [if_pos hc] at hjb
      have h2 := ih (tIdx + 1) toks acc
        (fun jb2 h2 => Nat.lt_succ_of_lt (hacc jb2 h2)) jb hjb
      omega
    · rw [if_neg hc] at hjb
      rcases hr : readNums t.jobCount toks with _ | ⟨ets, toks2⟩
      · rw [hr] at hjb
        dsimp only at hjb
        have h2 := hacc jb hjb
        omega
      · rw [hr] at hjb
        dsimp only at hjb
        rcases hb : buildJobsForTask t tIdx H ets 0 acc with ⟨acc2, flag⟩
        rw [hb] at hjb
        have hsub : ∀ jb2 ∈ acc2, jb2.taskIndex < tIdx + 1 := by
          intro jb2 h2
          have hmem : jb2 ∈ (buildJobsForTask t tIdx H ets 0 acc).1 := by
            rw [hb]
            exact h2
          rcases buildJobsForTask_taskIndex t tIdx H ets 0 acc jb2 hmem
            with h3 | h3
          · exact Nat.lt_succ_of_lt (hacc jb2 h3)
          · omega
        cases flag with
        | true =>
          dsimp only at hjb
          have h2 := hsub jb hjb
          omega
        | false =>
          dsimp only at hjb
          have h2 := ih (tIdx + 1) toks2 acc2 hsub jb hjb
          omega

theorem buildJobsArrayFR_taskIndex (ts : List TaskInfo) (H : ℚ)
    (ef : Option (List Token)) :
    ∀ jb ∈ (buildJobsArrayFR ts H ef).1, jb.taskIndex < ts.length := by
  intro jb hjb
  cases ef with
  | none =>
    rw [show buildJobsArrayFR ts H none = ([], BuildRes.openFail) from rfl]
      at hjb
    exact absurd hjb (List.not_mem_nil jb)
  | some toks =>
    have h2 := buildLoop_taskIndex H ts 0 toks []
      (fun jb2 h3 => absurd h3 (List.not_mem_nil jb2)) jb hjb
    simpa using h2

theorem globShape_step (H : ℚ) (nT nJ : Nat) (s : SchedState)
    (hs : globShape nT nJ s) :
    globShape nT nJ (stepState (schedStep H s)) := by
  obtain ⟨hlen, hjobs, hslices⟩ := hs
  unfold schedStep
  rcases hact : activeIndices s with _ | ⟨i, rest⟩
  · dsimp only
    split_ifs with hcond
    · exact ⟨hlen, hjobs, hslices⟩
    · exact ⟨hlen, hjobs, hslices⟩
  · dsimp only
    rcases hsel : chooseIndex s.jobs (i :: rest) with _ | ci
    · exact ⟨hlen, hjobs, hslices⟩
    · have hm : ci ∈ activeIndices s := by
        rw [hact]
        exact chooseIndex_mem s.jobs (i :: rest) ci hsel
      have hciLen : ci < s.jobs.length :=
        ((mem_activeIndices s ci).mp hm).1
      have hjset : ∀ nd : ℚ, ∀ y ∈ s.jobs.set ci
          (updateRunJob (jget s.jobs ci) s.now nd), y.taskIndex < nT := by
        intro nd y hy
        rcases List.mem_or_eq_of_mem_set hy with h2 | h2
        · exact hjobs y h2
        · subst h2
          rw [updateRunJob_taskIndex]
          exact hjobs (jget s.jobs ci) (jget_mem s.jobs ci hciLen)
      dsimp only
      by_cases hopen : s.lastJobIndex ≠ some ci
      · rw [if_pos hopen]
        by_cases hcap : maxSlices ≤ s.slices.length + 1
        · rw [if_pos hcap]
          exact ⟨hlen, hjobs, hslices⟩
        · rw [if_neg hcap]
          refine ⟨?_, ?_, ?_⟩
          · show (s.jobs.set ci _).length = nJ
            rw [List.length_set]
            exact hlen
          · exact hjset _
          · intro a ha
            rcases List.mem_append.mp ha with h2 | h2
            · exact hslices a h2
            · rcases List.mem_singleton.mp h2 with rfl
              show (jget s.jobs ci).taskIndex < nT
              exact hjobs (jget s.jobs ci) (jget_mem s.jobs ci hciLen)
      · rw [if_neg hopen]
        refine ⟨?_, ?_, ?_⟩
        · show (s.jobs.set ci _).length = nJ
          rw [List.length_set]
          exact hlen
        · exact hjset _
        · intro a ha
          obtain ⟨b, hb, hbe⟩ := mem_setLastEnd _ s.slices a ha
          rw [hbe]
          exact hslices b hb

theorem globShape_advance (H : ℚ) (nT nJ : Nat)
    (p : SchedState × SimStatus) (hs : globShape nT nJ p.1) :
    globShape nT nJ ((schedAdvance H p)).1 := by
  rcases p with ⟨s, st⟩
  cases st with
  | running =>
    unfold schedAdvance
    dsimp only
    split_ifs with hc
    · have hstep := globShape_step H nT nJ s hs
      rcases hst : schedStep H s with s2 | s2 | s2 | s2 <;>
        rw [hst] at hstep <;> exact hstep
    · exact hs
  | stopped => exact hs
  | capacityStop => exact hs
  | selectStop => exact hs

theorem globShape_iter (H : ℚ) (nT : Nat) (js : List Job)
    (hjs : ∀ j ∈ js, j.taskIndex < nT) (n : Nat) :
    globShape nT js.length (schedIter H js n).1 := by
  induction n with
  | zero =>
    exact ⟨rfl, hjs, fun a ha => absurd ha (List.not_mem_nil a)⟩
  | succ n ih =>
    unfold schedIter at ih ⊢
    rw [Function.iterate_succ_apply']
    exact globShape_advance H nT js.length _ ih

theorem vRunWithGlobals_out (g : Globals) (tf ef : Option (List Token))
    (h : runHitsSliceCapacity tf ef = false) :
    (vRunWithGlobals g tf ef).2 = runOutPure tf ef := by
  unfold vRunWithGlobals runOutPure
  dsimp only
  set ts := parseTaskFileFR tf with hts
  by_cases h0 : ts.length = 0
  · simp only [if_pos h0]
  · simp only [if_neg h0]
    rw [arrToList_overwriteArr g.tasksArr ts]
    set hp := computeHyperPeriodAndJobCounts ts with hhp
    rw [arrToList_overwriteArr_of_len (overwriteArr g.tasksArr ts) hp.2
      ts.length (by rw [hhp]; exact hyperPeriodTasks_len ts)]
    set ts2 := computeEDFVDParameters hp.2 with hts2
    have hts2len : ts2.length = ts.length := by
      rw [hts2, edfvdParams_len, hhp, hyperPeriodTasks_len]
    rw [arrToList_overwriteArr_of_len
      (overwriteArr (overwriteArr g.tasksArr ts) hp.2) ts2 ts.length hts2len]
    set built := buildJobsArrayFR ts2 hp.1 ef with hbuilt
    by_cases h1 : built.1.length = 0
    · simp only [if_pos h1]
    · simp only [if_neg h1]
      rw [arrToList_overwriteArr g.jobsArr built.1]
      set run := schedRunState hp.1 built.1 with hrun
      have hstat : run.2 ≠ SimStatus.capacityStop := by
        unfold runHitsSliceCapacity runPipeline at h
        dsimp only at h
        rw [← hts, ← hhp, ← hts2, ← hbuilt, ← hrun] at h
        simp only [if_neg h0, if_neg h1] at h
        exact of_decide_eq_false h
      rw [if_neg hstat, Nat.add_zero]
      have hshape := globShape_iter hp.1 ts.length built.1
        (by
          intro jb hjb
          rw [hbuilt] at hjb
          have h2 := buildJobsArrayFR_taskIndex ts2 hp.1 ef jb hjb
          rw [hts2len] at h2
          exact h2)
        (4 * built.1.length + 4)
      rw [show schedRunState hp.1 built.1 =
        schedIter hp.1 built.1 (4 * built.1.length + 4) from rfl] at hrun
      rw [← hrun] at hshape
      obtain ⟨hrlen, hrjobs, hrslices⟩ := hshape
      rw [arrToList_overwriteArr g.slicesArr run.1.slices]
      rw [arrToList_overwriteArr_of_len (overwriteArr g.jobsArr built.1)
        run.1.jobs built.1.length hrlen]
      congr 1
      apply List.map_congr_left
      intro i hi
      dsimp only
      have hilt : i < run.1.slices.length := List.mem_range.mp hi
      rw [overwriteArr_getD g.slicesArr run.1.slices i defaultSlice hilt]
      rw [overwriteArr_getD (overwriteArr (overwriteArr g.tasksArr ts) hp.2)
        ts2 (run.1.slices.getD i defaultSlice).taskIndex defaultTask
        (by
          rw [hts2len, List.getD_eq_getElem run.1.slices defaultSlice hilt]
          exact hrslices _ (List.getElem_mem hilt))]
      rfl

/-- C7: on any pair of input files whose run does not hit the slice-array
capacity bail-out, the emitted schedule lines and statistics are a pure
function of the two inputs: two invocations starting from arbitrary (and
arbitrarily different) contents of the global tasks/jobs/slices arrays
produce identical output.  (On the capacity path the writer reads one
slice cell the invocation never wrote, which is the sole residue of prior
global state; it is the same silently-truncated path recorded under C9.) -/
theorem determinism_no_global_residue (g g' : Globals)
    (tf ef : Option (List Token))
    (h : runHitsSliceCapacity tf ef = false) :
    (vRunWithGlobals g tf ef).2 = (vRunWithGlobals g' tf ef).2 :=
  (vRunWithGlobals_out g tf ef h).trans (vRunWithGlobals_out g' tf ef h).symm

/-- C7 witness: a concrete one-task input, scheduled from two different
garbage global states, produces the same output. -/
theorem determinism_no_global_residue_witness :
    runHitsSliceCapacity (some c7TaskToks) (some c7ExecToks) = false ∧
    (vRunWithGlobals c7G1 (some c7TaskToks) (some c7ExecToks)).2 =
      (vRunWithGlobals c7G2 (some c7TaskToks) (some c7ExecToks)).2 :=
  ⟨by with_unfolding_all decide,
   determinism_no_global_residue c7G1 c7G2 (some c7TaskToks)
     (some c7ExecToks) (by with_unfolding_all decide)⟩
